import Mathlib

/-!
# ITK: `SymmetricEigenAnalysis` configuration and `StringTools`

A shallow embedding of

* the configuration state of `itk::SymmetricEigenAnalysis`
  (`Code/Common/itkSymmetricEigenAnalysis.h`),
* the eigen-decomposition pipeline that class declares, whose bodies live in
  `itkSymmetricEigenAnalysis.txx` and are modelled from the specification,
* the string helpers of `itk::StringTools`
  (`Modules/IO/XML/src/itkStringTools.cxx`), and
* the argument handling of the test driver `itkMINCImageIOTest_2D`
  (`Modules/IO/MINC/test/itkMINCImageIOTest_2D.cxx`),

followed by the properties established about them.

`unsigned int` and `std::string::size_type` values are natural numbers; where
the source subtracts two sizes the result is reduced modulo `2 ^ 64`.
A `std::string` is a list of characters.
-/

namespace itk

/-! ## `SymmetricEigenAnalysis`: configuration state -/

/-- The three private data members of `SymmetricEigenAnalysis`. -/
structure SymmetricEigenAnalysis where
  m_Dimension : Nat
  m_Order : Nat
  m_OrderEigenValues : Bool
deriving DecidableEq

namespace SymmetricEigenAnalysis

/-- The default constructor `SymmetricEigenAnalysis()`. -/
def ctor : SymmetricEigenAnalysis :=
  { m_Dimension := 0, m_Order := 0, m_OrderEigenValues := true }

/-- The constructor `SymmetricEigenAnalysis(const unsigned int dimension)`. -/
def ctorDimension (dimension : Nat) : SymmetricEigenAnalysis :=
  { m_Dimension := dimension, m_Order := dimension, m_OrderEigenValues := true }

/-- Method `void SetOrder(const unsigned int n)`: `m_Order = n;`. -/
def SetOrder (s : SymmetricEigenAnalysis) (n : Nat) : SymmetricEigenAnalysis :=
  { s with m_Order := n }

/-- Method `unsigned int GetOrder() const`. -/
def GetOrder (s : SymmetricEigenAnalysis) : Nat := s.m_Order

/-- Method `void SetOrderEigenValues(const bool b)`: `m_OrderEigenValues = b;`. -/
def SetOrderEigenValues (s : SymmetricEigenAnalysis) (b : Bool) : SymmetricEigenAnalysis :=
  { s with m_OrderEigenValues := b }

/-- Method `bool GetOrderEigenValues() const`. -/
def GetOrderEigenValues (s : SymmetricEigenAnalysis) : Bool := s.m_OrderEigenValues

/-- Method `void SetDimension(const unsigned int n)`:
`m_Dimension = n; if (m_Order == 0) { m_Order = m_Dimension; }`. -/
def SetDimension (s : SymmetricEigenAnalysis) (n : Nat) : SymmetricEigenAnalysis :=
  let s1 : SymmetricEigenAnalysis := { s with m_Dimension := n }
  if s1.m_Order == 0 then { s1 with m_Order := s1.m_Dimension } else s1

/-- Method `unsigned int GetDimension() const`. -/
def GetDimension (s : SymmetricEigenAnalysis) : Nat := s.m_Dimension

/-- One call of a configuration setter. -/
inductive Call where
  | setDimension (n : Nat)
  | setOrder (n : Nat)
  | setOrderEigenValues (b : Bool)
deriving DecidableEq

/-- The state after one setter call. -/
def Call.apply (s : SymmetricEigenAnalysis) : Call → SymmetricEigenAnalysis
  | Call.setDimension n => s.SetDimension n
  | Call.setOrder n => s.SetOrder n
  | Call.setOrderEigenValues b => s.SetOrderEigenValues b

/-- The state after a sequence of setter calls, made left to right. -/
def run (s : SymmetricEigenAnalysis) : List Call → SymmetricEigenAnalysis
  | [] => s
  | c :: cs => run (Call.apply s c) cs

/-- Whether a call keeps the caller's side of the `order ≤ dimension` contract in
state `s`: an order no larger than the declared dimension, and a dimension no
smaller than an order that is already in place. -/
def Call.keepsContract (s : SymmetricEigenAnalysis) : Call → Bool
  | Call.setDimension n => s.m_Order == 0 || decide (s.m_Order ≤ n)
  | Call.setOrder n => decide (n ≤ s.m_Dimension)
  | Call.setOrderEigenValues _ => true

/-- Whether every call of a sequence keeps the contract in the state it is made in. -/
def contractKept (s : SymmetricEigenAnalysis) : List Call → Bool
  | [] => true
  | c :: cs => Call.keepsContract s c && contractKept (Call.apply s c) cs

end SymmetricEigenAnalysis

/-! ## The eigen-decomposition pipeline -/

namespace SymmetricEigenAnalysis

/-- The working buffers of one call: the diagonal `d`, the sub-diagonal `e` and the
columns of the transformation matrix `Z`, each addressed by index as the C arrays are. -/
structure Buffers (α β : Type) where
  d : Nat → α
  e : Nat → α
  z : Nat → β

/-- Modelled from the spec: the numerical steps of the tridiagonal eigensolver of §4.2
(`ComputeEigenValuesUsingQL` and `ComputeEigenValuesAndVectorsUsingQL`, whose bodies
are in `itkSymmetricEigenAnalysis.txx`, are missing). `deflated b l` is the outcome
`m == l` of the deflation search for index `l`; `iterate b l` is one shifted QL
iteration for index `l` (shift and sweep of plane rotations). -/
structure QLKernel (α β : Type) where
  deflated : Buffers α β → Nat → Bool
  iterate : Buffers α β → Nat → Buffers α β

/-- Outcome of the deflation/iterate cycle of one eigenvalue index. -/
structure IndexResult (α β : Type) where
  buffers : Buffers α β
  iterations : Nat
  converged : Bool

/-- Modelled from the spec: the per-index deflation/iterate cycle of §4.2, capped at
`cap` iterations (the eigensolver bodies are missing). The index has converged as soon
as the deflation search succeeds; it fails when it is still not deflated after `cap`
iterations. -/
def solveIndex {α β : Type} (K : QLKernel α β) (l : Nat) :
    Nat → Buffers α β → IndexResult α β
  | 0, b => { buffers := b, iterations := 0, converged := K.deflated b l }
  | cap + 1, b =>
    if K.deflated b l then { buffers := b, iterations := 0, converged := true }
    else
      let r := solveIndex K l cap (K.iterate b l)
      { buffers := r.buffers, iterations := r.iterations + 1, converged := r.converged }

/-- Outcome of a run of the tridiagonal eigensolver. -/
structure QLResult (α β : Type) where
  status : Nat
  buffers : Buffers α β
  iterations : Nat

/-- Modelled from the spec: the state machine of §4.2 over the eigenvalue indices
`l, l + 1, ...` (`r` of them): each index runs its capped cycle; the first index that
does not converge ends the run with its 1-based position as status, and status `0`
is returned when all have converged (the eigensolver bodies are missing). -/
def qlLoop {α β : Type} (K : QLKernel α β) (cap : Nat) :
    Nat → Nat → Buffers α β → QLResult α β
  | 0, _, b => { status := 0, buffers := b, iterations := 0 }
  | r + 1, l, b =>
    let s := solveIndex K l cap b
    if s.converged then
      let t := qlLoop K cap r (l + 1) s.buffers
      { status := t.status, buffers := t.buffers, iterations := s.iterations + t.iterations }
    else { status := l + 1, buffers := s.buffers, iterations := s.iterations }

/-- Modelled from the spec: `ComputeEigenValuesUsingQL` (body missing), the values-only
eigensolver over indices `0 .. n - 1` with the cap of 30 iterations that §4.2 and the
header's comment give. -/
def ComputeEigenValuesUsingQL {α β : Type} (K : QLKernel α β) (n : Nat)
    (b : Buffers α β) : QLResult α β :=
  qlLoop K 30 n 0 b

/-- Modelled from the spec: `ComputeEigenValuesAndVectorsUsingQL` (body missing), the
values-and-vectors eigensolver over indices `0 .. n - 1` with the higher cap of §4.2,
which the header's comment gives as 1000 iterations. -/
def ComputeEigenValuesAndVectorsUsingQL {α β : Type} (K : QLKernel α β) (n : Nat)
    (b : Buffers α β) : QLResult α β :=
  qlLoop K 1000 n 0 b

/-- Exchange of the entries at positions `i` and `k` of an indexed buffer. -/
def swapAt {γ : Type} (f : Nat → γ) (i k : Nat) : Nat → γ :=
  fun x => if x = i then f k else if x = k then f i else f x

/-- Modelled from the spec: the inner scan of the selection sort of §4.2 (the sort is in
the missing `itkSymmetricEigenAnalysis.txx`): over the `c` positions `j, j + 1, ...` it
keeps in `k` the position of the least entry seen so far. -/
def argMin {α : Type} [LinearOrder α] (d : Nat → α) : Nat → Nat → Nat → Nat
  | 0, _, k => k
  | c + 1, j, k => if d j < d k then argMin d c (j + 1) j else argMin d c (j + 1) k

/-- Modelled from the spec: the passes `i, i + 1, ...` (`r` of them) of the in-place
selection sort of §4.2 (in the missing `itkSymmetricEigenAnalysis.txx`): pass `i` finds
the least of `d[i .. order - 1]` and exchanges it with `d[i]`, exchanging the same two
whole columns of `Z`. -/
def selectionPasses {α β : Type} [LinearOrder α] (order : Nat) :
    Nat → Nat → (Nat → α) × (Nat → β) → (Nat → α) × (Nat → β)
  | 0, _, p => p
  | r + 1, i, p =>
    let k := argMin p.1 (order - (i + 1)) (i + 1) i
    selectionPasses order r (i + 1) (swapAt p.1 i k, swapAt p.2 i k)

/-- Modelled from the spec: the ordering post-pass of the Orchestrator (§4.2, last
paragraph; in the missing `itkSymmetricEigenAnalysis.txx`): an ascending in-place
selection sort of the first `order` entries of `d` that applies the identical
exchanges to the columns of `Z`. -/
def orderEigenPairs {α β : Type} [LinearOrder α] (order : Nat)
    (d : Nat → α) (z : Nat → β) : (Nat → α) × (Nat → β) :=
  selectionPasses order order 0 (d, z)

/-- What an entry point hands back: the status, the eigenvalues and the eigenvectors. -/
structure EigenOutput (α β : Type) where
  status : Nat
  values : Nat → α
  vectors : Nat → β

/-- Modelled from the spec: `ComputeEigenValues` (§2 control flow and §4.3; body in the
missing `itkSymmetricEigenAnalysis.txx`): Reducer (values-only, the parameter `reduce`),
then the values-only eigensolver, then the optional ascending sort; the status of the
eigensolver is returned. -/
def ComputeEigenValues {α β M : Type} [LinearOrder α] (cfg : SymmetricEigenAnalysis)
    (reduce : M → Buffers α β) (K : QLKernel α β) (A : M) : EigenOutput α Unit :=
  let r := ComputeEigenValuesUsingQL K cfg.m_Order (reduce A)
  { status := r.status
    values :=
      if cfg.m_OrderEigenValues then
        (orderEigenPairs cfg.m_Order r.buffers.d (fun _ => ())).1
      else r.buffers.d
    vectors := fun _ => () }

/-- Modelled from the spec: `ComputeEigenValuesAndVectors` (§2 control flow and §4.3;
body in the missing `itkSymmetricEigenAnalysis.txx`): Reducer (values-and-vectors, the
parameter `reduce`), then the values-and-vectors eigensolver, then the optional
synchronized sort; the status of the eigensolver is returned. -/
def ComputeEigenValuesAndVectors {α β M : Type} [LinearOrder α]
    (cfg : SymmetricEigenAnalysis) (reduce : M → Buffers α β) (K : QLKernel α β)
    (A : M) : EigenOutput α β :=
  let r := ComputeEigenValuesAndVectorsUsingQL K cfg.m_Order (reduce A)
  if cfg.m_OrderEigenValues then
    let p := orderEigenPairs cfg.m_Order r.buffers.d r.buffers.z
    { status := r.status, values := p.1, vectors := p.2 }
  else { status := r.status, values := r.buffers.d, vectors := r.buffers.z }

/-- Whether the deflation search for index `l` succeeds after at most `cap` iterations
from buffers `b`. -/
def determinedWithin {α β : Type} (K : QLKernel α β) (cap l : Nat) (b : Buffers α β) : Bool :=
  (List.range (cap + 1)).any fun k => K.deflated ((fun t => K.iterate t l)^[k] b) l

/-- The buffers on entry to index `l + c`, when the solver entered index `l` with `b`
and the `c` indices from `l` on have been processed. -/
def buffersAfter {α β : Type} (K : QLKernel α β) (cap : Nat) :
    Nat → Nat → Buffers α β → Buffers α β
  | 0, _, b => b
  | c + 1, l, b => buffersAfter K cap c (l + 1) (solveIndex K l cap b).buffers

/-- The state of the sort before pass `i`: the first `i` entries are in order and none
of them exceeds a later entry among the first `order`. -/
def SortedUpTo {α : Type} [LinearOrder α] (order i : Nat) (d : Nat → α) : Prop :=
  (∀ a b, a ≤ b → b < i → d a ≤ d b) ∧ (∀ a b, a < i → i ≤ b → b < order → d a ≤ d b)

/-- The return contract of the eigensolver run with iteration cap `cap` over the indices
`0 .. n - 1` from buffers `b`, for a returned status `st`: `st` is `0` exactly when every
index was determined within the cap, and a non-zero `st` is the 1-based position of the
first index that was not. -/
def StatusContract {α β : Type} (K : QLKernel α β) (cap n : Nat) (b : Buffers α β)
    (st : Nat) : Prop :=
  (st = 0 ↔ ∀ l, l < n → determinedWithin K cap l (buffersAfter K cap l 0 b) = true) ∧
  (st ≠ 0 → 1 ≤ st ∧ st ≤ n ∧
    determinedWithin K cap (st - 1) (buffersAfter K cap (st - 1) 0 b) = false ∧
    ∀ l, l < st - 1 → determinedWithin K cap l (buffersAfter K cap l 0 b) = true)

/-- The working state of the Reducer: the working copy of the matrix and the
sub-diagonal `e`. -/
structure ReducerState (α : Type) where
  a : Nat → Nat → α
  e : Nat → α

/-- Modelled from the spec: step 1 of the Reducer (§4.1; `ReduceToTridiagonalMatrix` is
in the missing `itkSymmetricEigenAnalysis.txx`): the norm of the sub-row to be
eliminated, the entries of row `i` left of the diagonal. -/
def subRowNorm {α : Type} [LinearOrderedField α] (a : Nat → Nat → α) (i : Nat) : α :=
  ((List.range i).map fun k => |a i k|).sum

/-- Modelled from the spec: one column of the Reducer (§4.1; body missing): when the
norm of the sub-row is zero the reflection is skipped and the off-diagonal entry is set
to zero; otherwise the Householder steps 2 and 3, the parameter `reflect`, are applied. -/
def reduceColumn {α : Type} [LinearOrderedField α]
    (reflect : Nat → ReducerState α → ReducerState α) (i : Nat)
    (st : ReducerState α) : ReducerState α :=
  if subRowNorm st.a i = 0 then { st with e := Function.update st.e i 0 }
  else reflect i st

/-- Modelled from the spec: the columns `i, i - 1, ..., 1` (counted from `0`) of the
Reducer, in that order (§4.1: from `n` down to `2`, counted from `1`; body missing). -/
def reduceFrom {α : Type} [LinearOrderedField α]
    (reflect : Nat → ReducerState α → ReducerState α) :
    Nat → ReducerState α → ReducerState α
  | 0, st => st
  | i + 1, st => reduceFrom reflect i (reduceColumn reflect (i + 1) st)

/-- Modelled from the spec: `ReduceToTridiagonalMatrix` (§4.1, values-only variant; body
in the missing `itkSymmetricEigenAnalysis.txx`): all columns from the last down, after
which `d` is the diagonal of the working matrix and `e` holds the sub-diagonal in its
last `n - 1` positions with its first entry set to zero, as the header documents. -/
def ReduceToTridiagonalMatrix {α : Type} [LinearOrderedField α]
    (reflect : Nat → ReducerState α → ReducerState α) (n : Nat)
    (inputMatrix : Nat → Nat → α) (e : Nat → α) : Buffers α Unit :=
  let st := reduceFrom reflect (n - 1) { a := inputMatrix, e := e }
  { d := fun i => st.a i i, e := Function.update st.e 0 0, z := fun _ => () }

/-- Modelled from the spec: the negligibility test of the deflation search (§4.2; body
missing): the off-diagonal element between rows `m` and `m + 1`, which the header's
layout stores at `e[m + 1]`, against the adjacent diagonal magnitudes with relative
tolerance `eps`. -/
def negligible {α β : Type} [LinearOrderedField α] (eps : α) (b : Buffers α β)
    (m : Nat) : Bool :=
  decide (|b.e (m + 1)| ≤ eps * (|b.d m| + |b.d (m + 1)|))

/-- Modelled from the spec: the deflation search of §4.2 (body missing): the scan from
`m` upward over `c` positions, which stops at the first negligible off-diagonal element
and otherwise ends at the last index. -/
def deflationSearch {α β : Type} [LinearOrderedField α] (eps : α) (b : Buffers α β) :
    Nat → Nat → Nat
  | 0, m => m
  | c + 1, m => if negligible eps b m then m else deflationSearch eps b c (m + 1)

/-- Modelled from the spec: the eigensolver kernel of §4.2 for order `n` (body missing):
index `l` is deflated when the search from `l` stops at `m = l`; otherwise one iteration
applies the shift and rotations, the parameter `sweep`, to the block `l .. m`. -/
def qlKernel {α β : Type} [LinearOrderedField α] (eps : α) (n : Nat)
    (sweep : Buffers α β → Nat → Nat → Buffers α β) : QLKernel α β :=
  { deflated := fun b l => deflationSearch eps b (n - 1 - l) l == l
    iterate := fun b l => sweep b l (deflationSearch eps b (n - 1 - l) l) }

end SymmetricEigenAnalysis

/-! ## `StringTools` -/

namespace StringTools

/-- The value `std::string::npos`, the largest `size_type` (64 bit). -/
def npos : Nat := 2 ^ 64 - 1

/-- Subtraction of two `size_type` values, which wraps around modulo `2 ^ 64`. -/
def sizeSub (a b : Nat) : Nat := (a % 2 ^ 64 + 2 ^ 64 - b % 2 ^ 64) % 2 ^ 64

/-- The library function `std::tolower` in the C locale: the letters `A`..`Z` are moved to `a`..`z`,
every other character is returned as it is. -/
def tolower (c : Char) : Char :=
  if 'A'.toNat ≤ c.toNat ∧ c.toNat ≤ 'Z'.toNat then Char.ofNat (c.toNat + 32) else c

/-- Method `StringTools::ToLowerCase`: `std::for_each` over the string, replacing each
character `c` by `std::tolower(c)`. -/
def ToLowerCase (str : List Char) : List Char := str.map tolower

/-- Search of `std::string::rfind`: the highest position `xpos ≤ i` at which `s2`
occurs in `s1`, and `npos` when there is none. -/
def rfindLoop (s1 s2 : List Char) : Nat → Nat
  | 0 => if s2.isPrefixOf s1 then 0 else npos
  | i + 1 => if s2.isPrefixOf (s1.drop (i + 1)) then i + 1 else rfindLoop s1 s2 i

/-- The library call `s1.rfind(s2)` with the default start `npos`: the highest
`xpos` with `xpos + s2.size() ≤ s1.size()` at which `s2` occurs, else `npos`. -/
def rfind (s1 s2 : List Char) : Nat :=
  if s2.length ≤ s1.length then rfindLoop s1 s2 (s1.length - s2.length) else npos

/-- Method `StringTools::EndWith(s1, s2, ignoreCase)`: the difference of the sizes is
taken in `size_type`, then `rfind` of the (lower-cased, when the case is ignored)
strings is compared with it. -/
def EndWith (s1 s2 : List Char) (ignoreCase : Bool) : Bool :=
  let pos := sizeSub s1.length s2.length
  if ignoreCase then
    let ls1 := ToLowerCase s1
    let ls2 := ToLowerCase s2
    if rfind ls1 ls2 == pos then true else false
  else
    if rfind s1 s2 == pos then true else false

/-- The library function `std::toupper` in the C locale: the letters `a`..`z` are moved to
`A`..`Z`, every other character is returned as it is. -/
def toupper (c : Char) : Char :=
  if 'a'.toNat ≤ c.toNat ∧ c.toNat ≤ 'z'.toNat then Char.ofNat (c.toNat - 32) else c

/-- Method `StringTools::ToUpperCase`: `std::for_each` over the string, replacing each
character `c` by `std::toupper(c)`. -/
def ToUpperCase (str : List Char) : List Char := str.map toupper

/-- Search of `std::string::find_first_not_of`: the position, counted from `i` at the
head of the remaining text, of the first character that is not in `chars`, and `npos`
when there is none. -/
def firstNotOfFrom (chars : List Char) : List Char → Nat → Nat
  | [], _ => npos
  | c :: cs, i => if chars.contains c then firstNotOfFrom chars cs (i + 1) else i

/-- The library call `str.find_first_not_of(chars)`. -/
def find_first_not_of (str chars : List Char) : Nat := firstNotOfFrom chars str 0

/-- Search of `std::string::find_first_of`: the position, counted from `i` at the head
of the remaining text, of the first character that is in `chars`, and `npos` when
there is none. -/
def firstOfFrom (chars : List Char) : List Char → Nat → Nat
  | [], _ => npos
  | c :: cs, i => if chars.contains c then i else firstOfFrom chars cs (i + 1)

/-- The library call `s.find_first_of(chars)`. -/
def find_first_of (s chars : List Char) : Nat := firstOfFrom chars s 0

/-- Search of `std::string::find_last_not_of`: the highest position below `i` whose
character is not in `chars`, and `npos` when there is none. -/
def lastNotOfLoop (str chars : List Char) : Nat → Nat
  | 0 => npos
  | i + 1 =>
    match str[i]? with
    | some c => if chars.contains c then lastNotOfLoop str chars i else i
    | none => lastNotOfLoop str chars i

/-- The library call `str.find_last_not_of(chars)`. -/
def find_last_not_of (str chars : List Char) : Nat := lastNotOfLoop str chars str.length

/-- Method `StringTools::TrimLeft(str, dislike)`; the returned string is the new content
of `str`. -/
def TrimLeft (str dislike : List Char) : List Char :=
  if !str.isEmpty then
    let pos := find_first_not_of str dislike
    if pos != npos then
      if pos > 0 then str.drop pos else str
    else []
  else str

/-- Method `StringTools::TrimRight(str, dislike)`; the returned string is the new
content of `str`. The incremented position is a `size_type`. -/
def TrimRight (str dislike : List Char) : List Char :=
  if !str.isEmpty then
    let pos := find_last_not_of str dislike
    if pos != npos then
      let pos1 := (pos + 1) % 2 ^ 64
      if pos1 < str.length then str.take pos1 else str
    else []
  else str

/-- Method `StringTools::Trim(str, dislike)`: `TrimRight(TrimLeft(str, dislike), dislike)`. -/
def Trim (str dislike : List Char) : List Char :=
  TrimRight (TrimLeft str dislike) dislike

/-- The three string objects of a call of the two-part `Split`, as they stand when the
call returns: the input `s` and the outputs `lpart` and `rpart`. -/
structure SplitResult where
  s : List Char
  lpart : List Char
  rpart : List Char
deriving DecidableEq

/-- Method `StringTools::Split(s, lpart, rpart, delims)`, the two-part overload, for
three distinct string objects; both outputs are assigned on every path, and `s` is
only read. The calls `Trim(lpart)` and `Trim(rpart)` use the default value of
`dislike`, which `itkStringTools.h` declares and which is passed here as
`defaultDislike`. -/
def Split (defaultDislike : List Char) (s delims : List Char) : SplitResult :=
  let pos := find_first_of s delims
  if pos != npos then
    let lpart := s.take pos
    let lpart := Trim lpart defaultDislike
    let rpart := s.drop (pos + 1)
    let rpart := Trim rpart defaultDislike
    { s := s, lpart := lpart, rpart := rpart }
  else
    let lpart := s
    let lpart := Trim lpart defaultDislike
    { s := s, lpart := lpart, rpart := [] }

/-- Method `StringTools::MatchWith(s1, s2, ignoreCase)`. -/
def MatchWith (s1 s2 : List Char) (ignoreCase : Bool) : Bool :=
  if ignoreCase then
    let ls1 := ToLowerCase s1
    let ls2 := ToLowerCase s2
    if ls1 == ls2 then true else false
  else
    if s1 == s2 then true else false

/-- Search of `std::string::find`: the lowest of the `c` positions `i, i + 1, ...` at
which `s2` occurs in `s1`, and `npos` when there is none. -/
def findLoop (s1 s2 : List Char) : Nat → Nat → Nat
  | 0, _ => npos
  | c + 1, i => if s2.isPrefixOf (s1.drop i) then i else findLoop s1 s2 c (i + 1)

/-- The library call `s1.find(s2)` with the default start `0`: the lowest `xpos` with
`xpos + s2.size() ≤ s1.size()` at which `s2` occurs, else `npos`. -/
def find (s1 s2 : List Char) : Nat :=
  if s2.length ≤ s1.length then findLoop s1 s2 (s1.length - s2.length + 1) 0 else npos

/-- Method `StringTools::StartWith(s1, s2, ignoreCase)`. -/
def StartWith (s1 s2 : List Char) (ignoreCase : Bool) : Bool :=
  if ignoreCase then
    let ls1 := ToLowerCase s1
    let ls2 := ToLowerCase s2
    if find ls1 ls2 == 0 then true else false
  else
    if find s1 s2 == 0 then true else false

/-- Method `StringTools::ContainSub(s1, s2, ignoreCase)`. -/
def ContainSub (s1 s2 : List Char) (ignoreCase : Bool) : Bool :=
  if ignoreCase then
    let ls1 := ToLowerCase s1
    let ls2 := ToLowerCase s2
    if find ls1 ls2 != npos then true else false
  else
    if find s1 s2 != npos then true else false

end StringTools

/-! ## The `itkMINCImageIOTest_2D` test driver -/

/-- How the argument handling of `itkMINCImageIOTest_2D` ends: with one of its two error
messages and `EXIT_FAILURE`, with an exception out of `std::stod`, or by going on to
the two `test_image_moments` calls with the file names and reference values. -/
inductive DriverOutcome (R : Type) where
  | missingParameters
  | incorrectNumberOfAdditionalParameters
  | stodThrows
  | runs (input output : String) (total mx my : R)
deriving DecidableEq

/-- The test driver `itkMINCImageIOTest_2D(argc, argv)` up to its `try` block, with
`argc` the number of entries of `argv`. The library function `std::stod` is the
parameter `stod`, which gives no value where `std::stod` throws. -/
def itkMINCImageIOTest_2D {R : Type} [Zero R] (stod : String → Option R)
    (argv : List String) : DriverOutcome R :=
  let argc : Int := argv.length
  if argc < 3 then DriverOutcome.missingParameters
  else
    let input := argv.getD 1 ""
    let output := argv.getD 2 ""
    if argc > 3 then
      if argc == 7 then
        match stod (argv.getD 3 ""), stod (argv.getD 4 ""), stod (argv.getD 5 "") with
        | some total, some mx, some my => DriverOutcome.runs input output total mx my
        | _, _, _ => DriverOutcome.stodThrows
      else DriverOutcome.incorrectNumberOfAdditionalParameters
    else DriverOutcome.runs input output 0 0 0

end itk

/-! ## Properties -/

namespace itk

open SymmetricEigenAnalysis StringTools

/-- C1: in every configuration state and for every `n`, after `SetDimension(n)` the
dimension is `n`, the order is `n` when it was `0` before the call and is what it was
otherwise, and the eigenvalue-ordering flag is what it was. -/
theorem SetDimension_spec (s : SymmetricEigenAnalysis) (n : Nat) :
    GetDimension (SetDimension s n) = n ∧
    GetOrder (SetDimension s n) = (if GetOrder s = 0 then n else GetOrder s) ∧
    GetOrderEigenValues (SetDimension s n) = GetOrderEigenValues s := by
  unfold SetDimension GetDimension GetOrder GetOrderEigenValues
  by_cases h : s.m_Order = 0 <;> simp [h]

/-- C2: the code at the failing inputs. With `SetOrder` never called, the order differs
from the dimension after `SymmetricEigenAnalysis(5)` followed by `SetDimension(3)`
(order 5, dimension 3) and after the default constructor followed by `SetDimension(3)`
and `SetDimension(5)` (order 3, dimension 5). -/
theorem order_stale_after_SetDimension :
    GetOrder (run (ctorDimension 5) [Call.setDimension 3]) = 5 ∧
    GetDimension (run (ctorDimension 5) [Call.setDimension 3]) = 3 ∧
    GetOrder (run ctor [Call.setDimension 3, Call.setDimension 5]) = 3 ∧
    GetDimension (run ctor [Call.setDimension 3, Call.setDimension 5]) = 5 := by
  decide

/-- C3, counterexample: after the default constructor and `SetOrder(1)` the order is 1
and the dimension is 0, so `order ≤ dimension` fails in a reachable state. -/
theorem order_le_dimension_not_invariant :
    ¬ (GetOrder (run ctor [Call.setOrder 1]) ≤ GetDimension (run ctor [Call.setOrder 1])) := by
  decide

theorem keepsContract_preserves (s : SymmetricEigenAnalysis) (c : Call)
    (hs : s.m_Order ≤ s.m_Dimension) (hc : Call.keepsContract s c = true) :
    (Call.apply s c).m_Order ≤ (Call.apply s c).m_Dimension := by
  cases c with
  | setDimension n =>
    simp only [Call.keepsContract, Bool.or_eq_true, beq_iff_eq, decide_eq_true_eq] at hc
    simp only [Call.apply, SetDimension]
    by_cases h : s.m_Order = 0
    · simp [h]
    · simp only [beq_iff_eq, h, if_false]
      rcases hc with hc | hc
      · exact absurd hc h
      · exact hc
  | setOrder n =>
    simpa [Call.keepsContract, Call.apply, SetOrder] using hc
  | setOrderEigenValues b =>
    simpa [Call.apply, SetOrderEigenValues] using hs

theorem run_preserves (cs : List Call) : ∀ s : SymmetricEigenAnalysis,
    s.m_Order ≤ s.m_Dimension → contractKept s cs = true →
    (run s cs).m_Order ≤ (run s cs).m_Dimension := by
  induction cs with
  | nil => intro s hs _; simpa [run] using hs
  | cons c cs ih =>
    intro s hs hk
    simp only [contractKept, Bool.and_eq_true] at hk
    simp only [run]
    exact ih _ (keepsContract_preserves s c hs hk.1) hk.2

/-- C3, amended: from either constructor, after any sequence of setter calls in which
every `SetOrder(n)` is made with `n` at most the current dimension and every
`SetDimension(n)` is made while the order is `0` or at most `n`, the order is at most
the dimension. -/
theorem order_le_dimension_under_contract (s0 : SymmetricEigenAnalysis) (cs : List Call)
    (h0 : s0 = ctor ∨ ∃ n, s0 = ctorDimension n)
    (hk : contractKept s0 cs = true) :
    GetOrder (run s0 cs) ≤ GetDimension (run s0 cs) := by
  apply run_preserves cs s0 _ hk
  rcases h0 with rfl | ⟨n, rfl⟩ <;> simp [ctor, ctorDimension]

theorem order_le_dimension_under_contract_witness :
    contractKept (ctorDimension 4)
      [Call.setOrder 2, Call.setOrderEigenValues false, Call.setDimension 6, Call.setOrder 5] = true ∧
    GetOrder (run (ctorDimension 4)
      [Call.setOrder 2, Call.setOrderEigenValues false, Call.setDimension 6, Call.setOrder 5]) ≤
    GetDimension (run (ctorDimension 4)
      [Call.setOrder 2, Call.setOrderEigenValues false, Call.setDimension 6, Call.setOrder 5]) :=
  ⟨by decide, order_le_dimension_under_contract _ _ (Or.inr ⟨4, rfl⟩) (by decide)⟩

/-- C4: the default constructor yields dimension 0, order 0 and eigenvalue ordering
enabled; the constructor taking a dimension `n` yields dimension `n`, order `n` and
eigenvalue ordering enabled, for every `n`. -/
theorem constructors_spec :
    GetDimension ctor = 0 ∧ GetOrder ctor = 0 ∧ GetOrderEigenValues ctor = true ∧
    ∀ n : Nat, GetDimension (ctorDimension n) = n ∧ GetOrder (ctorDimension n) = n ∧
      GetOrderEigenValues (ctorDimension n) = true :=
  ⟨rfl, rfl, rfl, fun _ => ⟨rfl, rfl, rfl⟩⟩

/-- C5: in every state and for every `n`, also one larger than the dimension, after
`SetOrder(n)` the order is `n` while the dimension and the eigenvalue-ordering flag are
what they were before the call. -/
theorem SetOrder_frame (s : SymmetricEigenAnalysis) (n : Nat) :
    GetOrder (SetOrder s n) = n ∧
    GetDimension (SetOrder s n) = GetDimension s ∧
    GetOrderEigenValues (SetOrder s n) = GetOrderEigenValues s :=
  ⟨rfl, rfl, rfl⟩

theorem rfindLoop_le_or_npos (s1 s2 : List Char) (i : Nat) :
    rfindLoop s1 s2 i ≤ i ∨ rfindLoop s1 s2 i = npos := by
  induction i with
  | zero => unfold rfindLoop; split <;> simp
  | succ i ih =>
    unfold rfindLoop
    split
    · exact Or.inl le_rfl
    · rcases ih with h | h
      · exact Or.inl (by omega)
      · exact Or.inr h

theorem rfindLoop_of_match (s1 s2 : List Char) (i : Nat)
    (h : s2.isPrefixOf (s1.drop i) = true) : rfindLoop s1 s2 i = i := by
  cases i with
  | zero =>
    have h0 : s2.isPrefixOf s1 = true := by simpa using h
    simp [rfindLoop, h0]
  | succ i => simp [rfindLoop, h]

theorem match_of_rfindLoop_eq (s1 s2 : List Char) (i : Nat) (hi : i < npos)
    (h : rfindLoop s1 s2 i = i) : s2.isPrefixOf (s1.drop i) = true := by
  cases i with
  | zero =>
    unfold rfindLoop at h
    split at h
    · simpa using ‹s2.isPrefixOf s1 = true›
    · simp [npos] at h
  | succ i =>
    unfold rfindLoop at h
    split at h
    · assumption
    · rcases rfindLoop_le_or_npos s1 s2 i with h' | h' <;> omega

/-- What `EndWith` computes on strings of representable size when the case matters: it
accepts the suffixes of `s1`, and also every `s2` exactly one character longer than
`s1`, where the wrapped difference of the sizes coincides with `npos`. -/
theorem EndWith_eq_true_iff (s1 s2 : List Char)
    (h1 : s1.length < 2 ^ 64 - 1) (h2 : s2.length < 2 ^ 64) :
    EndWith s1 s2 false = true ↔ s2 <:+ s1 ∨ s2.length = s1.length + 1 := by
  have e1 : s1.length % 2 ^ 64 = s1.length := Nat.mod_eq_of_lt (by omega)
  have e2 : s2.length % 2 ^ 64 = s2.length := Nat.mod_eq_of_lt h2
  simp only [EndWith, Bool.false_eq_true, if_false, sizeSub, e1, e2, beq_iff_eq,
    Bool.if_true_left, Bool.or_false, decide_eq_true_eq, Bool.not_eq_true]
  by_cases hle : s2.length ≤ s1.length
  · have hp : (s1.length + 2 ^ 64 - s2.length) % 2 ^ 64 = s1.length - s2.length := by
      have : s1.length + 2 ^ 64 - s2.length = (s1.length - s2.length) + 2 ^ 64 := by omega
      rw [this, Nat.add_mod_right]; exact Nat.mod_eq_of_lt (by omega)
    simp only [rfind, hle, if_true, hp]
    constructor
    · intro h
      left
      have hm := match_of_rfindLoop_eq s1 s2 _ (by simp only [npos]; omega) h
      rw [List.isPrefixOf_iff_prefix] at hm
      have hl : (s1.drop (s1.length - s2.length)).length = s2.length := by
        simp only [List.length_drop]; omega
      have := hm.eq_of_length hl.symm
      rw [this]; exact List.drop_suffix _ _
    · rintro (h | h)
      · apply rfindLoop_of_match
        rw [List.isPrefixOf_iff_prefix, ← List.suffix_iff_eq_drop.mp h]
      · omega
  · have hnot : ¬ s2 <:+ s1 := fun h => hle h.length_le
    simp only [rfind, hle, if_false, hnot, false_or, npos]
    have hp : (s1.length + 2 ^ 64 - s2.length) % 2 ^ 64 = s1.length + 2 ^ 64 - s2.length :=
      Nat.mod_eq_of_lt (by omega)
    rw [hp]; omega

/-- C10: the code at the failing input. `EndWith("", "a", false)` returns `true`
although `"a"` is not a suffix of the empty string. -/
theorem EndWith_empty_in_one_char :
    EndWith [] ['a'] false = true ∧ ¬ (['a'] <:+ ([] : List Char)) := by
  refine ⟨by decide, ?_⟩
  intro h
  simpa using h.length_le

theorem swapAt_eq_comp_swap {γ : Type} (f : Nat → γ) (i k : Nat) :
    swapAt f i k = f ∘ (Equiv.swap i k) := by
  funext x
  simp only [swapAt, Function.comp, Equiv.swap_apply_def]
  split_ifs <;> rfl

theorem map_swap_range_perm (n i k : Nat) (hi : i < n) (hk : k < n) :
    ((List.range n).map (Equiv.swap i k)).Perm (List.range n) := by
  rw [List.perm_ext_iff_of_nodup
    ((List.nodup_range n).map (Equiv.swap i k).injective) (List.nodup_range n)]
  intro a
  simp only [List.mem_map, List.mem_range]
  constructor
  · rintro ⟨x, hx, rfl⟩
    rw [Equiv.swap_apply_def]
    split_ifs <;> assumption
  · intro ha
    refine ⟨Equiv.swap i k a, ?_, by simp⟩
    rw [Equiv.swap_apply_def]
    split_ifs <;> assumption

theorem map_swapAt_range_perm {γ : Type} (f : Nat → γ) (n i k : Nat) (hi : i < n) (hk : k < n) :
    ((List.range n).map (swapAt f i k)).Perm ((List.range n).map f) := by
  rw [swapAt_eq_comp_swap, ← List.map_map]
  exact (map_swap_range_perm n i k hi hk).map f

theorem argMin_spec {α : Type} [LinearOrder α] (d : Nat → α) (c : Nat) :
    ∀ j k, k < j →
      (argMin d c j k = k ∨ (j ≤ argMin d c j k ∧ argMin d c j k < j + c)) ∧
      d (argMin d c j k) ≤ d k ∧
      ∀ x, j ≤ x → x < j + c → d (argMin d c j k) ≤ d x := by
  induction c with
  | zero =>
    intro j k _
    refine ⟨Or.inl rfl, le_rfl, ?_⟩
    intro x h1 h2; omega
  | succ c ih =>
    intro j k hkj
    unfold argMin
    split
    · rename_i hlt
      obtain ⟨h1, h2, h3⟩ := ih (j + 1) j (by omega)
      refine ⟨Or.inr ?_, le_trans h2 hlt.le, ?_⟩
      · rcases h1 with h | ⟨ha, hb⟩
        · rw [h]; omega
        · omega
      · intro x hx1 hx2
        rcases Nat.eq_or_lt_of_le hx1 with rfl | hx
        · exact h2
        · exact h3 x hx (by omega)
    · rename_i hnlt
      obtain ⟨h1, h2, h3⟩ := ih (j + 1) k (by omega)
      refine ⟨?_, h2, ?_⟩
      · rcases h1 with h | ⟨ha, hb⟩
        · exact Or.inl h
        · exact Or.inr ⟨by omega, by omega⟩
      · intro x hx1 hx2
        rcases Nat.eq_or_lt_of_le hx1 with rfl | hx
        · exact le_trans h2 (not_lt.mp hnlt)
        · exact h3 x hx (by omega)

theorem selectionPasses_spec {α β : Type} [LinearOrder α] (order : Nat) (r : Nat) :
    ∀ (i : Nat) (p : (Nat → α) × (Nat → β)), i + r = order → SortedUpTo order i p.1 →
      SortedUpTo order order (selectionPasses order r i p).1 ∧
      ((List.range order).map fun x =>
          ((selectionPasses order r i p).1 x, (selectionPasses order r i p).2 x)).Perm
        ((List.range order).map fun x => (p.1 x, p.2 x)) ∧
      ∃ σ : Equiv.Perm Nat, (∀ x, order ≤ x → σ x = x) ∧
        ∀ x, (selectionPasses order r i p).1 x = p.1 (σ x) ∧
          (selectionPasses order r i p).2 x = p.2 (σ x) := by
  induction r with
  | zero =>
    intro i p hi hs
    have : i = order := by omega
    subst this
    exact ⟨hs, List.Perm.refl _, Equiv.refl Nat, fun _ _ => rfl, fun _ => ⟨rfl, rfl⟩⟩
  | succ r ih =>
    intro i p hi hs
    simp only [selectionPasses]
    obtain ⟨hk1, hk2, hk3⟩ := argMin_spec p.1 (order - (i + 1)) (i + 1) i (by omega)
    set k := argMin p.1 (order - (i + 1)) (i + 1) i with hkdef
    have hki : i ≤ k := by rcases hk1 with h | h <;> omega
    have hkn : k < order := by rcases hk1 with h | h <;> omega
    have hmin : ∀ x, i ≤ x → x < order → p.1 k ≤ p.1 x := by
      intro x hx1 hx2
      rcases Nat.eq_or_lt_of_le hx1 with rfl | hx
      · exact hk2
      · exact hk3 x hx (by omega)
    have hs' : SortedUpTo order (i + 1) (swapAt p.1 i k) := by
      obtain ⟨s1, s2⟩ := hs
      constructor
      · intro a b hab hb
        rcases Nat.eq_or_lt_of_le (Nat.lt_succ_iff.mp hb) with rfl | hbi
        · rcases Nat.eq_or_lt_of_le hab with rfl | hab'
          · exact le_rfl
          · have e1 : swapAt p.1 b k a = p.1 a := by
              simp only [swapAt]; rw [if_neg (by omega), if_neg (by omega)]
            have e2 : swapAt p.1 b k b = p.1 k := by simp [swapAt]
            rw [e1, e2]; exact s2 a k hab' hki hkn
        · have e1 : swapAt p.1 i k a = p.1 a := by
            simp only [swapAt]; rw [if_neg (by omega), if_neg (by omega)]
          have e2 : swapAt p.1 i k b = p.1 b := by
            simp only [swapAt]; rw [if_neg (by omega), if_neg (by omega)]
          rw [e1, e2]; exact s1 a b hab hbi
      · intro a b ha hb hbn
        have hbsrc : ∃ y, i ≤ y ∧ y < order ∧ swapAt p.1 i k b = p.1 y := by
          simp only [swapAt]
          rw [if_neg (by omega)]
          by_cases hbk : b = k
          · rw [if_pos hbk]; exact ⟨i, le_rfl, by omega, rfl⟩
          · rw [if_neg hbk]; exact ⟨b, by omega, hbn, rfl⟩
        obtain ⟨y, hy1, hy2, hy3⟩ := hbsrc
        rw [hy3]
        rcases Nat.eq_or_lt_of_le (Nat.lt_succ_iff.mp ha) with rfl | hai
        · have e2 : swapAt p.1 a k a = p.1 k := by simp [swapAt]
          rw [e2]; exact hmin y hy1 hy2
        · have e1 : swapAt p.1 i k a = p.1 a := by
            simp only [swapAt]; rw [if_neg (by omega), if_neg (by omega)]
          rw [e1]; exact s2 a y hai hy1 hy2
    obtain ⟨r1, r2, r3⟩ := ih (i + 1) (swapAt p.1 i k, swapAt p.2 i k) (by omega) hs'
    obtain ⟨σ, s1, s2⟩ := r3
    refine ⟨r1, r2.trans ?_, σ.trans (Equiv.swap i k), ?_, ?_⟩
    · have hfun : (fun x => (swapAt p.1 i k x, swapAt p.2 i k x)) =
          swapAt (fun x => (p.1 x, p.2 x)) i k := by
        funext x
        simp only [swapAt]
        split_ifs <;> rfl
      show ((List.range order).map fun x => (swapAt p.1 i k x, swapAt p.2 i k x)).Perm _
      rw [hfun]
      exact map_swapAt_range_perm _ order i k (by omega) hkn
    · intro x hx
      rw [Equiv.trans_apply, s1 x hx, Equiv.swap_apply_def, if_neg (by omega), if_neg (by omega)]
    · intro x
      obtain ⟨q1, q2⟩ := s2 x
      rw [q1, q2, swapAt_eq_comp_swap, swapAt_eq_comp_swap]
      exact ⟨rfl, rfl⟩

theorem orderEigenPairs_spec {α β : Type} [LinearOrder α] (order : Nat)
    (d : Nat → α) (z : Nat → β) :
    (∀ i j, i ≤ j → j < order → (orderEigenPairs order d z).1 i ≤ (orderEigenPairs order d z).1 j) ∧
    ((List.range order).map fun x =>
        ((orderEigenPairs order d z).1 x, (orderEigenPairs order d z).2 x)).Perm
      ((List.range order).map fun x => (d x, z x)) ∧
    ∃ σ : Equiv.Perm Nat, (∀ x, order ≤ x → σ x = x) ∧
      ∀ x, (orderEigenPairs order d z).1 x = d (σ x) ∧
        (orderEigenPairs order d z).2 x = z (σ x) := by
  have h := selectionPasses_spec order order 0 (d, z) (by omega)
    ⟨fun a b _ hb => absurd hb (Nat.not_lt_zero _), fun a b ha => absurd ha (Nat.not_lt_zero _)⟩
  exact ⟨h.1.1, h.2.1, h.2.2⟩

theorem determinedWithin_succ {α β : Type} (K : QLKernel α β) (cap l : Nat) (b : Buffers α β) :
    determinedWithin K (cap + 1) l b =
      (K.deflated b l || determinedWithin K cap l (K.iterate b l)) := by
  rw [Bool.eq_iff_iff]
  simp only [determinedWithin, List.any_eq_true, List.mem_range, Bool.or_eq_true]
  constructor
  · rintro ⟨k, hk, h⟩
    cases k with
    | zero => exact Or.inl h
    | succ k => exact Or.inr ⟨k, by omega, by simpa [Function.iterate_succ_apply] using h⟩
  · rintro (h | ⟨k, hk, h⟩)
    · exact ⟨0, by omega, h⟩
    · exact ⟨k + 1, by omega, by simpa [Function.iterate_succ_apply] using h⟩

theorem solveIndex_converged {α β : Type} (K : QLKernel α β) (l cap : Nat) :
    ∀ b : Buffers α β, (solveIndex K l cap b).converged = determinedWithin K cap l b := by
  induction cap with
  | zero =>
    intro b
    simp [solveIndex, determinedWithin, List.range_succ]
  | succ cap ih =>
    intro b
    rw [determinedWithin_succ]
    unfold solveIndex
    by_cases h : K.deflated b l = true
    · simp [h]
    · simp only [h, if_false, Bool.false_eq_true]
      rw [ih]; simp [h]

theorem qlLoop_status {α β : Type} (K : QLKernel α β) (cap r : Nat) :
    ∀ (l : Nat) (b : Buffers α β),
      ((qlLoop K cap r l b).status = 0 ↔
        ∀ i, i < r → determinedWithin K cap (l + i) (buffersAfter K cap i l b) = true) ∧
      ((qlLoop K cap r l b).status ≠ 0 →
        l + 1 ≤ (qlLoop K cap r l b).status ∧ (qlLoop K cap r l b).status ≤ l + r ∧
        determinedWithin K cap ((qlLoop K cap r l b).status - 1)
          (buffersAfter K cap ((qlLoop K cap r l b).status - 1 - l) l b) = false ∧
        ∀ i, i < (qlLoop K cap r l b).status - 1 - l →
          determinedWithin K cap (l + i) (buffersAfter K cap i l b) = true) := by
  induction r with
  | zero =>
    intro l b
    simp [qlLoop]
  | succ r ih =>
    intro l b
    have hc := solveIndex_converged K l cap b
    by_cases hconv : (solveIndex K l cap b).converged = true
    · have hst : (qlLoop K cap (r + 1) l b).status =
          (qlLoop K cap r (l + 1) (solveIndex K l cap b).buffers).status := by
        simp [qlLoop, hconv]
      rw [hst]
      obtain ⟨h1, h2⟩ := ih (l + 1) (solveIndex K l cap b).buffers
      have hdet : determinedWithin K cap l b = true := by rw [← hc]; exact hconv
      constructor
      · rw [h1]
        constructor
        · intro h i hi
          cases i with
          | zero => simpa [buffersAfter] using hdet
          | succ i =>
            have := h i (by omega)
            simpa [buffersAfter, Nat.add_assoc, Nat.add_comm 1 i] using this
        · intro h i hi
          have := h (i + 1) (by omega)
          simpa [buffersAfter, Nat.add_assoc, Nat.add_comm 1 i] using this
      · intro hne
        obtain ⟨a1, a2, a3, a4⟩ := h2 hne
        set st := (qlLoop K cap r (l + 1) (solveIndex K l cap b).buffers).status with hstdef
        refine ⟨by omega, by omega, ?_, ?_⟩
        · have e : st - 1 - l = (st - 1 - (l + 1)) + 1 := by omega
          rw [e]
          simpa [buffersAfter] using a3
        · intro i hi
          cases i with
          | zero => simpa [buffersAfter] using hdet
          | succ i =>
            have := a4 i (by omega)
            simpa [buffersAfter, Nat.add_assoc, Nat.add_comm 1 i] using this
    · have hst : (qlLoop K cap (r + 1) l b).status = l + 1 := by
        simp [qlLoop, hconv]
      rw [hst]
      have hdet : determinedWithin K cap l b = false := by
        rw [← hc]; simpa using hconv
      constructor
      · constructor
        · intro h; omega
        · intro h
          have := h 0 (by omega)
          simp [buffersAfter, hdet] at this
      · intro _
        refine ⟨le_rfl, by omega, ?_, ?_⟩
        · simpa [buffersAfter] using hdet
        · intro i hi; omega

theorem qlLoop_statusContract {α β : Type} (K : QLKernel α β) (cap n : Nat) (b : Buffers α β) :
    StatusContract K cap n b (qlLoop K cap n 0 b).status := by
  obtain ⟨h1, h2⟩ := qlLoop_status K cap n 0 b
  constructor
  · rw [h1]
    constructor
    · intro h l hl; simpa using h l hl
    · intro h l hl; simpa using h l hl
  · intro hne
    obtain ⟨a1, a2, a3, a4⟩ := h2 hne
    refine ⟨by omega, by omega, by simpa using a3, ?_⟩
    intro l hl
    simpa using a4 l (by simpa using hl)

/-- C6: when the ordering flag is true, on return from `ComputeEigenValues` and from
`ComputeEigenValuesAndVectors` the first `order` eigenvalues are in non-decreasing
order; the returned eigenvalues are a rearrangement of the eigensolver's unsorted ones,
and the returned (eigenvalue, eigenvector) pairs are a rearrangement of the
eigensolver's pairs, so each eigenvector stays with its eigenvalue: one permutation of
the first `order` positions, applied to both, turns the unsorted eigenvalues and whole
eigenvectors into the returned ones. -/
theorem ordered_eigenvalues_and_vectors {α β M : Type} [LinearOrder α]
    (cfg : SymmetricEigenAnalysis) (reduce1 reduce2 : M → Buffers α β)
    (K1 K2 : QLKernel α β) (A : M) (h : GetOrderEigenValues cfg = true) :
    (∀ i j, i ≤ j → j < GetOrder cfg →
      (ComputeEigenValues cfg reduce1 K1 A).values i ≤
        (ComputeEigenValues cfg reduce1 K1 A).values j) ∧
    ((List.range (GetOrder cfg)).map (ComputeEigenValues cfg reduce1 K1 A).values).Perm
      ((List.range (GetOrder cfg)).map
        (ComputeEigenValuesUsingQL K1 (GetOrder cfg) (reduce1 A)).buffers.d) ∧
    (∀ i j, i ≤ j → j < GetOrder cfg →
      (ComputeEigenValuesAndVectors cfg reduce2 K2 A).values i ≤
        (ComputeEigenValuesAndVectors cfg reduce2 K2 A).values j) ∧
    ((List.range (GetOrder cfg)).map fun i =>
        ((ComputeEigenValuesAndVectors cfg reduce2 K2 A).values i,
          (ComputeEigenValuesAndVectors cfg reduce2 K2 A).vectors i)).Perm
      ((List.range (GetOrder cfg)).map fun i =>
        ((ComputeEigenValuesAndVectorsUsingQL K2 (GetOrder cfg) (reduce2 A)).buffers.d i,
          (ComputeEigenValuesAndVectorsUsingQL K2 (GetOrder cfg) (reduce2 A)).buffers.z i)) ∧
    (∃ σ : Equiv.Perm Nat, (∀ i, GetOrder cfg ≤ i → σ i = i) ∧
      ∀ i, (ComputeEigenValuesAndVectors cfg reduce2 K2 A).values i =
          (ComputeEigenValuesAndVectorsUsingQL K2 (GetOrder cfg) (reduce2 A)).buffers.d (σ i) ∧
        (ComputeEigenValuesAndVectors cfg reduce2 K2 A).vectors i =
          (ComputeEigenValuesAndVectorsUsingQL K2 (GetOrder cfg) (reduce2 A)).buffers.z (σ i)) := by
  have hf : cfg.m_OrderEigenValues = true := h
  simp only [ComputeEigenValues, ComputeEigenValuesAndVectors, GetOrder, hf, if_true]
  obtain ⟨a1, a2, _⟩ := orderEigenPairs_spec cfg.m_Order
    (ComputeEigenValuesUsingQL K1 cfg.m_Order (reduce1 A)).buffers.d (fun _ => ())
  obtain ⟨b1, b2, b3⟩ := orderEigenPairs_spec cfg.m_Order
    (ComputeEigenValuesAndVectorsUsingQL K2 cfg.m_Order (reduce2 A)).buffers.d
    (ComputeEigenValuesAndVectorsUsingQL K2 cfg.m_Order (reduce2 A)).buffers.z
  refine ⟨a1, ?_, b1, b2, b3⟩
  have := a2.map Prod.fst
  simpa [List.map_map, Function.comp] using this

theorem ordered_eigenvalues_and_vectors_witness :
    GetOrderEigenValues (ctorDimension 3) = true ∧
    (∀ i j, i ≤ j → j < 3 →
      (ComputeEigenValuesAndVectors (ctorDimension 3)
        (fun A : Nat → Int => ({ d := A, e := fun _ => 0, z := fun i => i } : Buffers Int Nat))
        { deflated := fun _ _ => true, iterate := fun b _ => b }
        (fun i => 5 - i)).values i ≤
      (ComputeEigenValuesAndVectors (ctorDimension 3)
        (fun A : Nat → Int => ({ d := A, e := fun _ => 0, z := fun i => i } : Buffers Int Nat))
        { deflated := fun _ _ => true, iterate := fun b _ => b }
        (fun i => 5 - i)).values j) :=
  ⟨rfl, (ordered_eigenvalues_and_vectors (ctorDimension 3)
      (fun A : Nat → Int => ({ d := A, e := fun _ => 0, z := fun i => i } : Buffers Int Nat))
      (fun A : Nat → Int => ({ d := A, e := fun _ => 0, z := fun i => i } : Buffers Int Nat))
      { deflated := fun _ _ => true, iterate := fun b _ => b }
      { deflated := fun _ _ => true, iterate := fun b _ => b }
      (fun i => 5 - i) rfl).2.2.1⟩

/-- C7: the status returned by `ComputeEigenValues` (cap of 30 iterations) and by
`ComputeEigenValuesAndVectors` (cap of 1000 iterations) is `0` exactly when every
eigenvalue index was determined within the cap, and otherwise is the 1-based position
of the first index that was not; a status is returned on every input. -/
theorem convergence_status {α β M : Type} [LinearOrder α]
    (cfg : SymmetricEigenAnalysis) (reduce1 reduce2 : M → Buffers α β)
    (K1 K2 : QLKernel α β) (A : M) :
    StatusContract K1 30 (GetOrder cfg) (reduce1 A)
      (ComputeEigenValues cfg reduce1 K1 A).status ∧
    StatusContract K2 1000 (GetOrder cfg) (reduce2 A)
      (ComputeEigenValuesAndVectors cfg reduce2 K2 A).status := by
  constructor
  · exact qlLoop_statusContract K1 30 cfg.m_Order (reduce1 A)
  · have : (ComputeEigenValuesAndVectors cfg reduce2 K2 A).status =
        (qlLoop K2 1000 cfg.m_Order 0 (reduce2 A)).status := by
      unfold ComputeEigenValuesAndVectors ComputeEigenValuesAndVectorsUsingQL
      split <;> rfl
    rw [this]
    exact qlLoop_statusContract K2 1000 cfg.m_Order (reduce2 A)

theorem subRowNorm_diagonal {α : Type} [LinearOrderedField α] (n : Nat) (a : Nat → Nat → α)
    (hdiag : ∀ i j, i < n → j < n → i ≠ j → a i j = 0) (i : Nat) (hi : i < n) :
    subRowNorm a i = 0 := by
  unfold subRowNorm
  apply List.sum_eq_zero
  intro x hx
  simp only [List.mem_map, List.mem_range] at hx
  obtain ⟨k, hk, rfl⟩ := hx
  rw [hdiag i k hi (by omega) (by omega), abs_zero]

theorem reduceFrom_diagonal {α : Type} [LinearOrderedField α]
    (reflect : Nat → ReducerState α → ReducerState α) (n : Nat) (a : Nat → Nat → α)
    (hdiag : ∀ i j, i < n → j < n → i ≠ j → a i j = 0) (i : Nat) :
    ∀ e : Nat → α, i < n →
      (reduceFrom reflect i { a := a, e := e }).a = a ∧
      ∀ j, (reduceFrom reflect i { a := a, e := e }).e j =
        if 1 ≤ j ∧ j ≤ i then 0 else e j := by
  induction i with
  | zero =>
    intro e _
    refine ⟨rfl, fun j => ?_⟩
    rw [if_neg (by omega)]; rfl
  | succ i ih =>
    intro e hi
    have hcol : reduceColumn reflect (i + 1) { a := a, e := e } =
        { a := a, e := Function.update e (i + 1) 0 } := by
      simp [reduceColumn, subRowNorm_diagonal n a hdiag (i + 1) hi]
    simp only [reduceFrom, hcol]
    obtain ⟨h1, h2⟩ := ih (Function.update e (i + 1) 0) (by omega)
    refine ⟨h1, fun j => ?_⟩
    rw [h2 j]
    by_cases hj : j = i + 1
    · subst hj
      rw [if_neg (by omega), if_pos (by omega), Function.update_same]
    · rw [Function.update_noteq hj]
      by_cases hj2 : 1 ≤ j ∧ j ≤ i
      · rw [if_pos hj2, if_pos (by omega)]
      · rw [if_neg hj2, if_neg (by omega)]

theorem deflated_of_zero_subdiagonal {α β : Type} [LinearOrderedField α] (eps : α)
    (heps : 0 ≤ eps) (n : Nat) (sweep : Buffers α β → Nat → Nat → Buffers α β)
    (b : Buffers α β) (hb : ∀ i, i < n → b.e i = 0) (l : Nat) :
    (qlKernel eps n sweep).deflated b l = true := by
  simp only [qlKernel, beq_iff_eq]
  cases hc : n - 1 - l with
  | zero => rfl
  | succ c =>
    have hneg : negligible eps b l = true := by
      simp only [negligible, decide_eq_true_eq]
      rw [hb (l + 1) (by omega), abs_zero]
      exact mul_nonneg heps (add_nonneg (abs_nonneg _) (abs_nonneg _))
    simp [deflationSearch, hneg]

theorem qlLoop_of_deflated {α β : Type} (K : QLKernel α β) (cap : Nat) (b : Buffers α β)
    (hd : ∀ l, K.deflated b l = true) (r : Nat) :
    ∀ l, qlLoop K (cap + 1) r l b = { status := 0, buffers := b, iterations := 0 } := by
  induction r with
  | zero => intro l; rfl
  | succ r ih =>
    intro l
    have hs : solveIndex K l (cap + 1) b = { buffers := b, iterations := 0, converged := true } := by
      simp [solveIndex, hd l]
    simp [qlLoop, hs, ih (l + 1)]

/-- C9: for a diagonal input matrix of order `n` the tridiagonal reduction leaves `d`
equal to the diagonal entries and `e` zero in all `n` positions, and the QL eigensolver
then returns status `0` after no iteration at all, with the buffers as the reduction
left them. -/
theorem diagonal_input_no_iteration {α : Type} [LinearOrderedField α] (eps : α)
    (reflect : Nat → ReducerState α → ReducerState α)
    (sweep : Buffers α Unit → Nat → Nat → Buffers α Unit)
    (n : Nat) (A : Nat → Nat → α) (e : Nat → α)
    (heps : 0 ≤ eps) (hdiag : ∀ i j, i < n → j < n → i ≠ j → A i j = 0) :
    (∀ i, i < n → (ReduceToTridiagonalMatrix reflect n A e).d i = A i i) ∧
    (∀ i, i < n → (ReduceToTridiagonalMatrix reflect n A e).e i = 0) ∧
    (ComputeEigenValuesUsingQL (qlKernel eps n sweep) n
      (ReduceToTridiagonalMatrix reflect n A e)).status = 0 ∧
    (ComputeEigenValuesUsingQL (qlKernel eps n sweep) n
      (ReduceToTridiagonalMatrix reflect n A e)).iterations = 0 ∧
    (ComputeEigenValuesUsingQL (qlKernel eps n sweep) n
      (ReduceToTridiagonalMatrix reflect n A e)).buffers =
        ReduceToTridiagonalMatrix reflect n A e := by
  have hd : ∀ i, i < n → (ReduceToTridiagonalMatrix reflect n A e).d i = A i i := by
    intro i hi
    obtain ⟨h1, _⟩ := reduceFrom_diagonal reflect n A hdiag (n - 1) e (by omega)
    simp only [ReduceToTridiagonalMatrix, h1]
  have he : ∀ i, i < n → (ReduceToTridiagonalMatrix reflect n A e).e i = 0 := by
    intro i hi
    obtain ⟨_, h2⟩ := reduceFrom_diagonal reflect n A hdiag (n - 1) e (by omega)
    simp only [ReduceToTridiagonalMatrix]
    by_cases h0 : i = 0
    · subst h0; rw [Function.update_same]
    · rw [Function.update_noteq h0, h2 i, if_pos (by omega)]
  have hq := qlLoop_of_deflated (qlKernel eps n sweep) 29
    (ReduceToTridiagonalMatrix reflect n A e)
    (deflated_of_zero_subdiagonal eps heps n sweep _ he) n 0
  refine ⟨hd, he, ?_, ?_, ?_⟩ <;> simp only [ComputeEigenValuesUsingQL] <;> rw [hq]

theorem diagonal_input_no_iteration_witness :
    (0 : ℚ) ≤ 1 ∧
    (∀ i j : Nat, i < 3 → j < 3 → i ≠ j → (if i = j then ((i : ℚ) + 2) else 0) = 0) ∧
    (ComputeEigenValuesUsingQL (qlKernel (1 : ℚ) 3 (fun b _ _ => b)) 3
      (ReduceToTridiagonalMatrix (fun _ st => st) 3
        (fun i j => if i = j then ((i : ℚ) + 2) else 0) (fun _ => 7))).status = 0 :=
  ⟨zero_le_one, fun _ _ _ _ h => if_neg h,
    (diagonal_input_no_iteration (1 : ℚ) (fun _ st => st) (fun b _ _ => b) 3
      (fun i j => if i = j then ((i : ℚ) + 2) else 0) (fun _ => 7)
      zero_le_one (fun _ _ _ _ h => if_neg h)).2.2.1⟩


set_option maxRecDepth 20000 in
/-- Sample runs of the status contract: a kernel under which index 2 never deflates makes
both entry points report 3, one under which an index deflates after its own number of
iterations is solved with status 0 up to the cap, and an order of 0 gives status 0. -/
theorem convergence_status_samples :
    (ComputeEigenValues (ctorDimension 4)
      (fun A : Nat → Int => ({ d := A, e := fun _ => 0, z := fun _ => () } : Buffers Int Unit))
      { deflated := fun _ l => l != 2, iterate := fun b _ => b } (fun i => i)).status = 3 ∧
    (ComputeEigenValuesAndVectors (ctorDimension 4)
      (fun A : Nat → Int => ({ d := A, e := fun _ => 0, z := fun _ => () } : Buffers Int Unit))
      { deflated := fun _ l => l != 2, iterate := fun b _ => b } (fun i => i)).status = 3 ∧
    (ComputeEigenValues (ctorDimension 4)
      (fun A : Nat → Int => ({ d := A, e := fun _ => 0, z := fun _ => () } : Buffers Int Unit))
      { deflated := fun b l => decide (b.d l = 0),
        iterate := fun b l => { b with d := fun i => if i = l then b.d i - 1 else b.d i } }
      (fun i => 10 * i)).status = 0 ∧
    (ComputeEigenValues (ctorDimension 5)
      (fun A : Nat → Int => ({ d := A, e := fun _ => 0, z := fun _ => () } : Buffers Int Unit))
      { deflated := fun b l => decide (b.d l = 0),
        iterate := fun b l => { b with d := fun i => if i = l then b.d i - 1 else b.d i } }
      (fun i => 10 * i)).status = 5 ∧
    (ComputeEigenValues ctor
      (fun A : Nat → Int => ({ d := A, e := fun _ => 0, z := fun _ => () } : Buffers Int Unit))
      { deflated := fun _ _ => false, iterate := fun b _ => b } (fun i => i)).status = 0 := by
  refine ⟨by decide, by decide, by decide, by decide, by decide⟩

theorem findLoop_sound (s1 s2 : List Char) (c : Nat) :
    ∀ i, findLoop s1 s2 c i = npos ∨
      (s2.isPrefixOf (s1.drop (findLoop s1 s2 c i)) = true ∧
        i ≤ findLoop s1 s2 c i ∧ findLoop s1 s2 c i < i + c) := by
  induction c with
  | zero => intro i; exact Or.inl rfl
  | succ c ih =>
    intro i
    unfold findLoop
    split
    · rename_i h
      exact Or.inr ⟨h, le_rfl, by omega⟩
    · rcases ih (i + 1) with h | ⟨h1, h2, h3⟩
      · exact Or.inl h
      · exact Or.inr ⟨h1, by omega, by omega⟩

theorem findLoop_complete (s1 s2 : List Char) (c : Nat) :
    ∀ i j, i ≤ j → j < i + c → s2.isPrefixOf (s1.drop j) = true →
      findLoop s1 s2 c i ≤ j := by
  induction c with
  | zero => intro i j h1 h2; omega
  | succ c ih =>
    intro i j h1 h2 hm
    unfold findLoop
    split
    · exact h1
    · rename_i hn
      rcases Nat.eq_or_lt_of_le h1 with rfl | hlt
      · exact absurd hm hn
      · exact ih (i + 1) j hlt (by omega) hm

theorem find_eq_zero_iff (s1 s2 : List Char) : find s1 s2 = 0 ↔ s2 <+: s1 := by
  unfold find
  constructor
  · intro h
    split at h
    · unfold findLoop at h
      split at h
      · rename_i hm
        simpa using hm
      · rcases findLoop_sound s1 s2 (s1.length - s2.length) (0 + 1) with h0 | ⟨_, h2, _⟩
        · rw [h0] at h; simp [npos] at h
        · omega
    · simp [npos] at h
  · intro h
    have hm : s2.isPrefixOf (s1.drop 0) = true := by simpa using h
    rw [if_pos h.length_le]
    have := findLoop_complete s1 s2 (s1.length - s2.length + 1) 0 0 le_rfl (by omega) hm
    omega

theorem infix_iff_prefix_drop (s1 s2 : List Char) :
    s2 <:+: s1 ↔ ∃ j, j + s2.length ≤ s1.length ∧ s2.isPrefixOf (s1.drop j) = true := by
  constructor
  · rintro ⟨a, b, rfl⟩
    refine ⟨a.length, by simp only [List.length_append]; omega, ?_⟩
    rw [List.isPrefixOf_iff_prefix, List.append_assoc, List.drop_left]
    exact List.prefix_append _ _
  · rintro ⟨j, _, hm⟩
    rw [List.isPrefixOf_iff_prefix] at hm
    exact hm.isInfix.trans (List.drop_suffix j s1).isInfix

theorem find_ne_npos_iff (s1 s2 : List Char) (h : s1.length < npos) :
    find s1 s2 ≠ npos ↔ s2 <:+: s1 := by
  rw [infix_iff_prefix_drop]
  unfold find
  constructor
  · intro hne
    split at hne
    · rename_i hle
      rcases findLoop_sound s1 s2 (s1.length - s2.length + 1) 0 with h0 | ⟨h1, _, h3⟩
      · exact absurd h0 hne
      · exact ⟨_, by omega, h1⟩
    · exact absurd rfl hne
  · rintro ⟨j, hj, hm⟩
    rw [if_pos (by omega)]
    have := findLoop_complete s1 s2 (s1.length - s2.length + 1) 0 j (Nat.zero_le _) (by omega) hm
    omega

/-- C11: for all strings `s1` and `s2`, `StartWith(s1, s2, false)` returns `true` exactly
when `s2` is a prefix of `s1`; in particular every string, the empty one included,
starts with the empty string. -/
theorem StartWith_iff_prefix (s1 s2 : List Char) :
    (StartWith s1 s2 false = true ↔ s2 <+: s1) ∧ StartWith s1 [] false = true := by
  have key : ∀ a b : List Char, StartWith a b false = true ↔ b <+: a := by
    intro a b
    simp only [StartWith, Bool.false_eq_true, if_false, beq_iff_eq]
    rw [← find_eq_zero_iff]
    by_cases hf : find a b = 0 <;> simp [hf]
  exact ⟨key s1 s2, (key s1 []).2 List.nil_prefix⟩

/-- C12: for all strings `s1` (of a size that `size_type` can hold below `npos`) and
`s2`, `ContainSub(s1, s2, false)` returns `true` exactly when `s2` occurs as a
contiguous substring of `s1`, that is `s1 = a ++ s2 ++ b` for some `a` and `b`. -/
theorem ContainSub_iff_infix (s1 s2 : List Char) (h : s1.length < npos) :
    ContainSub s1 s2 false = true ↔ ∃ a b, s1 = a ++ s2 ++ b := by
  have hinf : s2 <:+: s1 ↔ ∃ a b, s1 = a ++ s2 ++ b :=
    ⟨fun ⟨a, b, e⟩ => ⟨a, b, e.symm⟩, fun ⟨a, b, e⟩ => ⟨a, b, e.symm⟩⟩
  rw [← hinf, ← find_ne_npos_iff s1 s2 h]
  simp only [ContainSub, Bool.false_eq_true, if_false]
  by_cases hf : find s1 s2 = npos <;> simp [hf]

theorem ContainSub_iff_infix_witness :
    "itkImage".toList.length < npos ∧
    (ContainSub "itkImage".toList "kIm".toList false = true ↔
      ∃ a b, "itkImage".toList = a ++ "kIm".toList ++ b) :=
  ⟨by decide, ContainSub_iff_infix "itkImage".toList "kIm".toList (by decide)⟩

theorem toNat_ofNat_of_lt (n : Nat) (h : n < 55296) : (Char.ofNat n).toNat = n := by
  have hv : n.isValidChar := Or.inl h
  unfold Char.ofNat
  rw [dif_pos hv]
  rfl

theorem tolower_spec (c : Char) :
    ('A'.toNat ≤ c.toNat ∧ c.toNat ≤ 'Z'.toNat →
      (tolower c).toNat = c.toNat + 32 ∧
        'a'.toNat ≤ (tolower c).toNat ∧ (tolower c).toNat ≤ 'z'.toNat) ∧
    (¬ ('A'.toNat ≤ c.toNat ∧ c.toNat ≤ 'Z'.toNat) → tolower c = c) := by
  have hA : 'A'.toNat = 65 := rfl
  have hZ : 'Z'.toNat = 90 := rfl
  have ha : 'a'.toNat = 97 := rfl
  have hz : 'z'.toNat = 122 := rfl
  constructor
  · intro h
    have e : (tolower c).toNat = c.toNat + 32 := by
      simp only [tolower, if_pos h]
      exact toNat_ofNat_of_lt _ (by omega)
    rw [e]; omega
  · intro h
    simp only [tolower, if_neg h]

theorem toupper_spec (c : Char) :
    ('a'.toNat ≤ c.toNat ∧ c.toNat ≤ 'z'.toNat →
      (toupper c).toNat + 32 = c.toNat ∧
        'A'.toNat ≤ (toupper c).toNat ∧ (toupper c).toNat ≤ 'Z'.toNat) ∧
    (¬ ('a'.toNat ≤ c.toNat ∧ c.toNat ≤ 'z'.toNat) → toupper c = c) := by
  have hA : 'A'.toNat = 65 := rfl
  have hZ : 'Z'.toNat = 90 := rfl
  have ha : 'a'.toNat = 97 := rfl
  have hz : 'z'.toNat = 122 := rfl
  constructor
  · intro h
    have e : (toupper c).toNat = c.toNat - 32 := by
      simp only [toupper, if_pos h]
      exact toNat_ofNat_of_lt _ (by omega)
    rw [e]; omega
  · intro h
    simp only [toupper, if_neg h]

theorem tolower_idem (c : Char) : tolower (tolower c) = tolower c := by
  have hA : 'A'.toNat = 65 := rfl
  have hZ : 'Z'.toNat = 90 := rfl
  have ha : 'a'.toNat = 97 := rfl
  have hz : 'z'.toNat = 122 := rfl
  by_cases h : 'A'.toNat ≤ c.toNat ∧ c.toNat ≤ 'Z'.toNat
  · obtain ⟨h1, h2, h3⟩ := (tolower_spec c).1 h
    exact (tolower_spec (tolower c)).2 (by omega)
  · have e := (tolower_spec c).2 h
    rw [e, e]

theorem toupper_idem (c : Char) : toupper (toupper c) = toupper c := by
  have hA : 'A'.toNat = 65 := rfl
  have hZ : 'Z'.toNat = 90 := rfl
  have ha : 'a'.toNat = 97 := rfl
  have hz : 'z'.toNat = 122 := rfl
  by_cases h : 'a'.toNat ≤ c.toNat ∧ c.toNat ≤ 'z'.toNat
  · obtain ⟨h1, h2, h3⟩ := (toupper_spec c).1 h
    exact (toupper_spec (toupper c)).2 (by omega)
  · have e := (toupper_spec c).2 h
    rw [e, e]

/-- C17: `ToLowerCase` and `ToUpperCase` keep the length and act on each position by
itself; `ToLowerCase` moves a letter `A`..`Z` to the lower-case letter 32 code points
above it and leaves every other character as it is, `ToUpperCase` moves a letter
`a`..`z` to the upper-case letter 32 code points below it and leaves every other
character as it is; applying either a second time changes nothing. -/
theorem case_conversion_spec (str : List Char) :
    (ToLowerCase str).length = str.length ∧ (ToUpperCase str).length = str.length ∧
    (∀ i (h : i < str.length) (hl : i < (ToLowerCase str).length)
        (hu : i < (ToUpperCase str).length),
      (('A'.toNat ≤ str[i].toNat ∧ str[i].toNat ≤ 'Z'.toNat →
          (ToLowerCase str)[i].toNat = str[i].toNat + 32 ∧
            'a'.toNat ≤ (ToLowerCase str)[i].toNat ∧ (ToLowerCase str)[i].toNat ≤ 'z'.toNat) ∧
        (¬ ('A'.toNat ≤ str[i].toNat ∧ str[i].toNat ≤ 'Z'.toNat) →
          (ToLowerCase str)[i] = str[i])) ∧
      (('a'.toNat ≤ str[i].toNat ∧ str[i].toNat ≤ 'z'.toNat →
          (ToUpperCase str)[i].toNat + 32 = str[i].toNat ∧
            'A'.toNat ≤ (ToUpperCase str)[i].toNat ∧ (ToUpperCase str)[i].toNat ≤ 'Z'.toNat) ∧
        (¬ ('a'.toNat ≤ str[i].toNat ∧ str[i].toNat ≤ 'z'.toNat) →
          (ToUpperCase str)[i] = str[i]))) ∧
    ToLowerCase (ToLowerCase str) = ToLowerCase str ∧
    ToUpperCase (ToUpperCase str) = ToUpperCase str := by
  refine ⟨by simp [ToLowerCase], by simp [ToUpperCase], ?_, ?_, ?_⟩
  · intro i h hl hu
    have e1 : (ToLowerCase str)[i] = tolower str[i] := by simp [ToLowerCase]
    have e2 : (ToUpperCase str)[i] = toupper str[i] := by simp [ToUpperCase]
    rw [e1, e2]
    exact ⟨tolower_spec _, toupper_spec _⟩
  · simp only [ToLowerCase, List.map_map]
    congr 1
    funext c
    exact tolower_idem c
  · simp only [ToUpperCase, List.map_map]
    congr 1
    funext c
    exact toupper_idem c

/-- C13: `MatchWith(s1, s2, false)` is `true` exactly when the two strings are equal,
`MatchWith(s1, s2, true)` exactly when their `ToLowerCase` images are equal, and the
case-insensitive match is reflexive, symmetric and transitive. -/
theorem MatchWith_spec (s1 s2 s3 : List Char) :
    (MatchWith s1 s2 false = true ↔ s1 = s2) ∧
    (MatchWith s1 s2 true = true ↔ ToLowerCase s1 = ToLowerCase s2) ∧
    MatchWith s1 s1 true = true ∧
    (MatchWith s1 s2 true = true → MatchWith s2 s1 true = true) ∧
    (MatchWith s1 s2 true = true → MatchWith s2 s3 true = true →
      MatchWith s1 s3 true = true) := by
  have key : ∀ a b : List Char, MatchWith a b true = true ↔ ToLowerCase a = ToLowerCase b := by
    intro a b
    simp [MatchWith]
  refine ⟨by simp [MatchWith], key s1 s2, (key s1 s1).2 rfl, ?_, ?_⟩
  · intro h
    exact (key s2 s1).2 ((key s1 s2).1 h).symm
  · intro h1 h2
    exact (key s1 s3).2 (((key s1 s2).1 h1).trans ((key s2 s3).1 h2))

theorem contains_iff_mem (chars : List Char) (c : Char) :
    chars.contains c = true ↔ c ∈ chars := by
  simp

theorem firstNotOfFrom_eq (chars : List Char) (l : List Char) :
    ∀ i, firstNotOfFrom chars l i =
      if l.dropWhile (fun c => chars.contains c) = [] then npos
      else i + (l.takeWhile (fun c => chars.contains c)).length := by
  induction l with
  | nil => intro i; simp [firstNotOfFrom]
  | cons c cs ih =>
    intro i
    by_cases hc : chars.contains c = true
    · simp only [firstNotOfFrom, hc, if_true, List.dropWhile_cons_of_pos, List.takeWhile_cons_of_pos,
        List.length_cons]
      rw [ih (i + 1)]
      split <;> omega
    · simp only [firstNotOfFrom, hc, Bool.false_eq_true, if_false,
        List.dropWhile_cons_of_neg hc, List.takeWhile_cons_of_neg hc]
      simp

theorem TrimLeft_eq_dropWhile (str dislike : List Char) (h : str.length < 2 ^ 64) :
    TrimLeft str dislike = str.dropWhile (fun c => dislike.contains c) := by
  cases hs : str with
  | nil => simp [TrimLeft]
  | cons a as =>
    rw [← hs]
    have hne : str.isEmpty = false := by rw [hs]; rfl
    have hsplit := List.takeWhile_append_dropWhile (fun c => dislike.contains c) str
    have hlen : (str.takeWhile (fun c => dislike.contains c)).length +
        (str.dropWhile (fun c => dislike.contains c)).length = str.length := by
      rw [← List.length_append, hsplit]
    simp only [TrimLeft, hne, Bool.not_false, if_true, find_first_not_of]
    rw [firstNotOfFrom_eq]
    by_cases hd : str.dropWhile (fun c => dislike.contains c) = []
    · rw [if_pos hd, hd]
      simp
    · have hpos : 0 < (str.dropWhile (fun c => dislike.contains c)).length :=
        List.length_pos.mpr hd
      have hnp : (0 + (str.takeWhile (fun c => dislike.contains c)).length != npos) = true := by
        simp only [bne_iff_ne, npos]; omega
      rw [if_neg hd]
      simp only [hnp, if_true]
      by_cases hk : 0 + (str.takeWhile (fun c => dislike.contains c)).length > 0
      · rw [if_pos hk, Nat.zero_add]
        have hdrop := List.drop_left (str.takeWhile (fun c => dislike.contains c))
          (str.dropWhile (fun c => dislike.contains c))
        rwa [hsplit] at hdrop
      · rw [if_neg hk]
        have hnil : str.takeWhile (fun c => dislike.contains c) = [] :=
          List.eq_nil_of_length_eq_zero (by omega)
        rw [hnil] at hsplit
        simpa using hsplit.symm

theorem TrimLeft_split (str dislike : List Char) (h : str.length < 2 ^ 64) :
    ∃ removed, str = removed ++ TrimLeft str dislike ∧ (∀ c ∈ removed, c ∈ dislike) ∧
      (TrimLeft str dislike = [] ∨
        ∃ c rest, TrimLeft str dislike = c :: rest ∧ c ∉ dislike) := by
  rw [TrimLeft_eq_dropWhile str dislike h]
  refine ⟨str.takeWhile (fun c => dislike.contains c),
    (List.takeWhile_append_dropWhile _ str).symm, ?_, ?_⟩
  · intro c hc
    exact (contains_iff_mem dislike c).1 (List.mem_takeWhile_imp hc)
  · cases hd : str.dropWhile (fun c => dislike.contains c) with
    | nil => exact Or.inl rfl
    | cons c rest =>
      refine Or.inr ⟨c, rest, rfl, ?_⟩
      have hh := List.head?_dropWhile_not (fun c => dislike.contains c) str
      rw [hd] at hh
      intro hmem
      have := (contains_iff_mem dislike c).2 hmem
      simp [this] at hh
      exact hh hmem

/-- C15: `TrimLeft(str, dislike)` leaves what follows the longest prefix of `str` made
of characters in `dislike`: the original string is a removed prefix followed by the
result, every removed character is in `dislike`, and the result is empty or starts
with a character not in `dislike`. -/
theorem TrimLeft_spec (str dislike : List Char) (h : str.length < 2 ^ 64) :
    TrimLeft str dislike = str.dropWhile (fun c => dislike.contains c) ∧
    ∃ removed, str = removed ++ TrimLeft str dislike ∧ (∀ c ∈ removed, c ∈ dislike) ∧
      (TrimLeft str dislike = [] ∨
        ∃ c rest, TrimLeft str dislike = c :: rest ∧ c ∉ dislike) :=
  ⟨TrimLeft_eq_dropWhile str dislike h, TrimLeft_split str dislike h⟩

theorem TrimLeft_spec_witness :
    " \t key = 1 ".toList.length < 2 ^ 64 ∧
    TrimLeft " \t key = 1 ".toList " \t".toList =
      " \t key = 1 ".toList.dropWhile (fun c => " \t".toList.contains c) :=
  ⟨by decide, (TrimLeft_spec " \t key = 1 ".toList " \t".toList (by decide)).1⟩

theorem lastNotOfLoop_spec (str chars : List Char) (n : Nat) :
    (lastNotOfLoop str chars n = npos ∧
      ∀ j, j < n → ∀ c, str[j]? = some c → c ∈ chars) ∨
    (lastNotOfLoop str chars n < n ∧
      (∃ c, str[lastNotOfLoop str chars n]? = some c ∧ c ∉ chars) ∧
      ∀ j, lastNotOfLoop str chars n < j → j < n → ∀ c, str[j]? = some c → c ∈ chars) := by
  induction n with
  | zero => exact Or.inl ⟨rfl, fun j hj => absurd hj (Nat.not_lt_zero j)⟩
  | succ n ih =>
    unfold lastNotOfLoop
    cases hx : str[n]? with
    | none =>
      simp only
      rcases ih with ⟨h1, h2⟩ | ⟨h1, h2, h3⟩
      · refine Or.inl ⟨h1, fun j hj c hc => ?_⟩
        rcases Nat.eq_or_lt_of_le (Nat.lt_succ_iff.mp hj) with rfl | hlt
        · rw [hx] at hc; cases hc
        · exact h2 j hlt c hc
      · refine Or.inr ⟨by omega, h2, fun j hj1 hj2 c hc => ?_⟩
        rcases Nat.eq_or_lt_of_le (Nat.lt_succ_iff.mp hj2) with rfl | hlt
        · rw [hx] at hc; cases hc
        · exact h3 j hj1 hlt c hc
    | some x =>
      simp only
      by_cases hc : chars.contains x = true
      · rw [if_pos hc]
        have hmem : x ∈ chars := (contains_iff_mem chars x).1 hc
        rcases ih with ⟨h1, h2⟩ | ⟨h1, h2, h3⟩
        · refine Or.inl ⟨h1, fun j hj c hcj => ?_⟩
          rcases Nat.eq_or_lt_of_le (Nat.lt_succ_iff.mp hj) with rfl | hlt
          · rw [hx] at hcj; cases hcj; exact hmem
          · exact h2 j hlt c hcj
        · refine Or.inr ⟨by omega, h2, fun j hj1 hj2 c hcj => ?_⟩
          rcases Nat.eq_or_lt_of_le (Nat.lt_succ_iff.mp hj2) with rfl | hlt
          · rw [hx] at hcj; cases hcj; exact hmem
          · exact h3 j hj1 hlt c hcj
      · rw [if_neg hc]
        refine Or.inr ⟨Nat.lt_succ_self n, ⟨x, hx, fun hm => hc ((contains_iff_mem chars x).2 hm)⟩,
          fun j hj1 hj2 => ?_⟩
        omega

theorem TrimRight_split (str dislike : List Char) (h : str.length < 2 ^ 64) :
    ∃ removed, str = TrimRight str dislike ++ removed ∧ (∀ c ∈ removed, c ∈ dislike) ∧
      (TrimRight str dislike = [] ∨
        ∃ init c, TrimRight str dislike = init ++ [c] ∧ c ∉ dislike) := by
  cases hs : str with
  | nil => exact ⟨[], by simp [TrimRight], by simp, Or.inl (by simp [TrimRight])⟩
  | cons a as =>
    rw [← hs]
    have hne : str.isEmpty = false := by rw [hs]; rfl
    simp only [TrimRight, hne, Bool.not_false, if_true, find_last_not_of]
    rcases lastNotOfLoop_spec str dislike str.length with ⟨h1, h2⟩ | ⟨h1, ⟨x, hx, hxn⟩, h3⟩
    · rw [h1]
      refine ⟨str, by simp, ?_, Or.inl (by simp)⟩
      intro c hc
      obtain ⟨j, hj, hjc⟩ := List.mem_iff_getElem.1 hc
      exact h2 j hj c (by rw [List.getElem?_eq_getElem hj, hjc])
    · set r := lastNotOfLoop str dislike str.length with hr
      have hnp : (r != npos) = true := by simp only [bne_iff_ne, npos]; omega
      have hmod : (r + 1) % 2 ^ 64 = r + 1 := Nat.mod_eq_of_lt (by omega)
      have hres : (if (r + 1) % 2 ^ 64 < str.length then str.take ((r + 1) % 2 ^ 64) else str) =
          str.take (r + 1) := by
        rw [hmod]
        split
        · rfl
        · rw [List.take_of_length_le (by omega)]
      simp only [hnp, if_true, hres]
      refine ⟨str.drop (r + 1), (List.take_append_drop (r + 1) str).symm, ?_, Or.inr ?_⟩
      · intro c hc
        obtain ⟨j, hj, hjc⟩ := List.mem_iff_getElem.1 hc
        rw [List.length_drop] at hj
        have hget : str[r + 1 + j]? = some c := by
          rw [List.getElem_drop] at hjc
          rw [List.getElem?_eq_getElem (by omega), hjc]
        exact h3 (r + 1 + j) (by omega) (by omega) c hget
      · refine ⟨str.take r, x, ?_, hxn⟩
        have hxr : str[r] = x := by
          have := List.getElem?_eq_getElem h1
          rw [this] at hx
          exact Option.some.inj hx
        rw [← hxr, List.take_succ, List.getElem?_eq_getElem h1]
        rfl

theorem rdropWhile_of_split (p : Char → Bool) (res removed : List Char)
    (hrem : ∀ c ∈ removed, p c = true)
    (hres : res = [] ∨ ∃ init c, res = init ++ [c] ∧ p c = false) :
    (res ++ removed).rdropWhile p = res := by
  have h1 : (res ++ removed).rdropWhile p = res.rdropWhile p := by
    simp only [List.rdropWhile, List.reverse_append]
    rw [List.dropWhile_append_of_pos (fun c hc => hrem c (List.mem_reverse.1 hc))]
  rw [h1]
  rcases hres with rfl | ⟨init, c, rfl, hc⟩
  · simp
  · exact List.rdropWhile_concat_neg p init c (by simp [hc])

theorem TrimRight_eq_rdropWhile (str dislike : List Char) (h : str.length < 2 ^ 64) :
    TrimRight str dislike = str.rdropWhile (fun c => dislike.contains c) := by
  obtain ⟨removed, h1, h2, h3⟩ := TrimRight_split str dislike h
  have := rdropWhile_of_split (fun c => dislike.contains c) (TrimRight str dislike) removed
    (fun c hc => (contains_iff_mem dislike c).2 (h2 c hc))
    (by
      rcases h3 with h3 | ⟨init, c, e, hc⟩
      · exact Or.inl h3
      · refine Or.inr ⟨init, c, e, ?_⟩
        cases hb : dislike.contains c with
        | false => exact hb
        | true => exact absurd ((contains_iff_mem dislike c).1 hb) hc)
  rw [← h1] at this
  exact this.symm

/-- C16: `TrimRight(str, dislike)` leaves what precedes the longest suffix of `str` made
of characters in `dislike`: the original string is the result followed by a removed
suffix, every removed character is in `dislike`, and the result is empty or ends with
a character not in `dislike`. -/
theorem TrimRight_spec (str dislike : List Char) (h : str.length < 2 ^ 64) :
    TrimRight str dislike = str.rdropWhile (fun c => dislike.contains c) ∧
    ∃ removed, str = TrimRight str dislike ++ removed ∧ (∀ c ∈ removed, c ∈ dislike) ∧
      (TrimRight str dislike = [] ∨
        ∃ init c, TrimRight str dislike = init ++ [c] ∧ c ∉ dislike) :=
  ⟨TrimRight_eq_rdropWhile str dislike h, TrimRight_split str dislike h⟩

theorem TrimRight_spec_witness :
    " key = 1 \t ".toList.length < 2 ^ 64 ∧
    TrimRight " key = 1 \t ".toList " \t".toList =
      " key = 1 \t ".toList.rdropWhile (fun c => " \t".toList.contains c) :=
  ⟨by decide, (TrimRight_spec " key = 1 \t ".toList " \t".toList (by decide)).1⟩

theorem TrimLeft_length_le (str dislike : List Char) (h : str.length < 2 ^ 64) :
    (TrimLeft str dislike).length ≤ str.length := by
  obtain ⟨removed, h1, _, _⟩ := TrimLeft_split str dislike h
  have := congrArg List.length h1
  rw [List.length_append] at this
  omega

/-- C14: `Trim(str, dislike)` leaves `str` without its longest prefix and, of what is
left, its longest suffix made of characters in `dislike`: the original string is a
removed prefix, the result and a removed suffix, with every removed character in
`dislike` and the characters in between untouched; the result is empty exactly when
every character of `str` is in `dislike`, and otherwise it begins and ends with
characters not in `dislike`. -/
theorem Trim_spec (str dislike : List Char) (h : str.length < 2 ^ 64) :
    Trim str dislike =
      (str.dropWhile (fun c => dislike.contains c)).rdropWhile (fun c => dislike.contains c) ∧
    (∃ pre suf, str = pre ++ Trim str dislike ++ suf ∧
      (∀ c ∈ pre, c ∈ dislike) ∧ (∀ c ∈ suf, c ∈ dislike)) ∧
    (Trim str dislike = [] ↔ ∀ c ∈ str, c ∈ dislike) ∧
    (Trim str dislike ≠ [] →
      ∃ first last, (Trim str dislike).head? = some first ∧ first ∉ dislike ∧
        (Trim str dislike).getLast? = some last ∧ last ∉ dislike) := by
  have hl := TrimLeft_length_le str dislike h
  have hL : (TrimLeft str dislike).length < 2 ^ 64 := by omega
  obtain ⟨pre, p1, p2, p3⟩ := TrimLeft_split str dislike h
  obtain ⟨suf, q1, q2, q3⟩ := TrimRight_split (TrimLeft str dislike) dislike hL
  have hT : Trim str dislike = TrimRight (TrimLeft str dislike) dislike := rfl
  refine ⟨?_, ⟨pre, suf, ?_, p2, q2⟩, ?_, ?_⟩
  · rw [hT, TrimRight_eq_rdropWhile _ _ hL, TrimLeft_eq_dropWhile _ _ h]
  · rw [hT, List.append_assoc, ← q1, ← p1]
  · rw [hT]
    constructor
    · intro he c hc
      rw [he, List.nil_append] at q1
      rw [p1, q1, List.mem_append] at hc
      rcases hc with hc | hc
      · exact p2 c hc
      · exact q2 c hc
    · intro hall
      rcases p3 with p3 | ⟨c, rest, e, hc⟩
      · rw [p3] at q1
        have := (List.append_eq_nil.1 q1.symm).1
        rw [p3]; exact this
      · exfalso
        apply hc
        apply hall
        rw [p1, e]
        simp
  · intro hne
    rw [hT] at hne ⊢
    rcases q3 with q3 | ⟨init, last, e, hlast⟩
    · exact absurd q3 hne
    · rcases p3 with p3 | ⟨c, rest, e2, hc⟩
      · have hnil : TrimRight (TrimLeft str dislike) dislike = [] := by
          rw [p3]; simp [TrimRight]
        exact absurd hnil hne
      · refine ⟨c, last, ?_, hc, ?_, hlast⟩
        · cases hR : TrimRight (TrimLeft str dislike) dislike with
          | nil => exact absurd hR hne
          | cons x xs =>
            rw [hR] at q1
            rw [e2] at q1
            simp only [List.cons_append, List.cons.injEq] at q1
            rw [q1.1]; rfl
        · rw [e]; simp

theorem Trim_spec_witness :
    "  a b  ".toList.length < 2 ^ 64 ∧
    Trim "  a b  ".toList " ".toList =
      ("  a b  ".toList.dropWhile (fun c => " ".toList.contains c)).rdropWhile
        (fun c => " ".toList.contains c) :=
  ⟨by decide, (Trim_spec "  a b  ".toList " ".toList (by decide)).1⟩

theorem drop_succ_length_append (a : List Char) (c : Char) (b : List Char) :
    (a ++ c :: b).drop (a.length + 1) = b := by
  induction a with
  | nil => rfl
  | cons x xs ih => simp

theorem firstOfFrom_of_split (chars a b : List Char) (c : Char) (hc : c ∈ chars)
    (ha : ∀ x ∈ a, x ∉ chars) : ∀ i, firstOfFrom chars (a ++ c :: b) i = i + a.length := by
  induction a with
  | nil =>
    intro i
    simp [firstOfFrom, hc]
  | cons x xs ih =>
    intro i
    have hx : chars.contains x = false := by
      cases hb : chars.contains x with
      | false => rfl
      | true => exact absurd ((contains_iff_mem chars x).1 hb) (ha x (List.mem_cons_self x xs))
    have e : firstOfFrom chars (x :: (xs ++ c :: b)) i =
        firstOfFrom chars (xs ++ c :: b) (i + 1) := by
      simp only [firstOfFrom, hx, Bool.false_eq_true, if_false]
    rw [List.cons_append, e, ih (fun y hy => ha y (List.mem_cons_of_mem x hy)) (i + 1),
      List.length_cons]
    omega

theorem firstOfFrom_of_none (chars : List Char) (s : List Char) (hs : ∀ x ∈ s, x ∉ chars) :
    ∀ i, firstOfFrom chars s i = npos := by
  induction s with
  | nil => intro i; rfl
  | cons x xs ih =>
    intro i
    have hx : chars.contains x = false := by
      cases hb : chars.contains x with
      | false => rfl
      | true => exact absurd ((contains_iff_mem chars x).1 hb) (hs x (List.mem_cons_self x xs))
    have e : firstOfFrom chars (x :: xs) i = firstOfFrom chars xs (i + 1) := by
      simp only [firstOfFrom, hx, Bool.false_eq_true, if_false]
    rw [e]
    exact ih (fun y hy => hs y (List.mem_cons_of_mem x hy)) (i + 1)

theorem Trim_eq_rdropWhile_dropWhile (str dislike : List Char) (h : str.length < 2 ^ 64) :
    Trim str dislike =
      (str.dropWhile (fun c => dislike.contains c)).rdropWhile
        (fun c => dislike.contains c) := by
  have hl := TrimLeft_length_le str dislike h
  have hT : Trim str dislike = TrimRight (TrimLeft str dislike) dislike := rfl
  rw [hT, TrimRight_eq_rdropWhile _ _ (by omega), TrimLeft_eq_dropWhile _ _ h]

theorem Trim_ends (str dislike : List Char) (h : str.length < 2 ^ 64) :
    (∀ c, (Trim str dislike).head? = some c → c ∉ dislike) ∧
    (∀ c, (Trim str dislike).getLast? = some c → c ∉ dislike) := by
  have hl := TrimLeft_length_le str dislike h
  have hL : (TrimLeft str dislike).length < 2 ^ 64 := by omega
  obtain ⟨pre, _, _, p3⟩ := TrimLeft_split str dislike h
  obtain ⟨suf, q1, _, q3⟩ := TrimRight_split (TrimLeft str dislike) dislike hL
  have hT : Trim str dislike = TrimRight (TrimLeft str dislike) dislike := rfl
  rw [hT]
  constructor
  · intro c hc
    rcases p3 with p3 | ⟨x, rest, e2, hx⟩
    · have hnil : TrimRight (TrimLeft str dislike) dislike = [] := by
        rw [p3]; simp [TrimRight]
      rw [hnil] at hc
      cases hc
    · cases hR : TrimRight (TrimLeft str dislike) dislike with
      | nil => rw [hR] at hc; cases hc
      | cons y ys =>
        rw [hR] at q1 hc
        rw [e2] at q1
        simp only [List.cons_append, List.cons.injEq] at q1
        simp only [List.head?_cons, Option.some.injEq] at hc
        rw [← hc, ← q1.1]
        exact hx
  · intro c hc
    rcases q3 with q3 | ⟨init, last, e, hlast⟩
    · rw [q3] at hc
      cases hc
    · have hget : (init ++ [last]).getLast? = some last := by simp
      rw [e, hget] at hc
      rw [← Option.some.inj hc]
      exact hlast

/-- C18: the two-part `Split(s, lpart, rpart, delims)`. When `s` contains a character of
`delims`, `lpart` becomes the text before the first such character and `rpart` the
text after it (later delimiters staying inside `rpart`), each without its longest
leading and trailing run of characters of the default `dislike` of `Trim`; when `s`
contains none, `lpart` becomes `s` trimmed in the same way and `rpart` the empty
string. Neither part begins or ends with a character of that `dislike`, and `s` is
what it was. -/
theorem Split_spec (defaultDislike s delims : List Char) (h : s.length < 2 ^ 64) :
    (∀ a c b, s = a ++ c :: b → c ∈ delims → (∀ x ∈ a, x ∉ delims) →
      (Split defaultDislike s delims).lpart =
          (a.dropWhile (fun x => defaultDislike.contains x)).rdropWhile
            (fun x => defaultDislike.contains x) ∧
        (Split defaultDislike s delims).rpart =
          (b.dropWhile (fun x => defaultDislike.contains x)).rdropWhile
            (fun x => defaultDislike.contains x)) ∧
    ((∀ x ∈ s, x ∉ delims) →
      (Split defaultDislike s delims).lpart =
          (s.dropWhile (fun x => defaultDislike.contains x)).rdropWhile
            (fun x => defaultDislike.contains x) ∧
        (Split defaultDislike s delims).rpart = []) ∧
    (∀ c, (Split defaultDislike s delims).lpart.head? = some c → c ∉ defaultDislike) ∧
    (∀ c, (Split defaultDislike s delims).lpart.getLast? = some c → c ∉ defaultDislike) ∧
    (∀ c, (Split defaultDislike s delims).rpart.head? = some c → c ∉ defaultDislike) ∧
    (∀ c, (Split defaultDislike s delims).rpart.getLast? = some c → c ∉ defaultDislike) ∧
    (Split defaultDislike s delims).s = s := by
  refine ⟨?_, ?_, ?_⟩
  · intro a c b hs hc ha
    have hpos : find_first_of s delims = a.length := by
      rw [find_first_of, hs, firstOfFrom_of_split delims a b c hc ha 0, Nat.zero_add]
    have hlen : a.length + b.length < s.length := by
      rw [hs, List.length_append, List.length_cons]; omega
    have hnp : (a.length != npos) = true := by simp only [bne_iff_ne, npos]; omega
    simp only [Split, hpos, hnp, if_true]
    rw [hs, List.take_left, drop_succ_length_append a c b]
    exact ⟨Trim_eq_rdropWhile_dropWhile a defaultDislike (by omega),
      Trim_eq_rdropWhile_dropWhile b defaultDislike (by omega)⟩
  · intro hnone
    have hpos : find_first_of s delims = npos := firstOfFrom_of_none delims s hnone 0
    simp only [Split, hpos, bne_self_eq_false, Bool.false_eq_true, if_false]
    exact ⟨Trim_eq_rdropWhile_dropWhile s defaultDislike h, trivial⟩
  · have htake : (s.take (find_first_of s delims)).length < 2 ^ 64 := by
      rw [List.length_take]; omega
    have hdrop : (s.drop (find_first_of s delims + 1)).length < 2 ^ 64 := by
      rw [List.length_drop]; omega
    unfold Split
    by_cases hp : (find_first_of s delims != npos) = true
    · simp only [hp, if_true]
      exact ⟨(Trim_ends _ defaultDislike htake).1, (Trim_ends _ defaultDislike htake).2,
        (Trim_ends _ defaultDislike hdrop).1, (Trim_ends _ defaultDislike hdrop).2,
        trivial⟩
    · simp only [hp, if_false]
      refine ⟨(Trim_ends _ defaultDislike h).1, (Trim_ends _ defaultDislike h).2, ?_, ?_, rfl⟩
      · intro c hc; cases hc
      · intro c hc; cases hc

theorem Split_spec_witness :
    " k = v:w ".toList.length < 2 ^ 64 ∧
    (Split " \t\n\r".toList " k = v:w ".toList "=:".toList).lpart = "k".toList ∧
    (Split " \t\n\r".toList " k = v:w ".toList "=:".toList).rpart = "v:w".toList ∧
    (Split " \t\n\r".toList " k = v:w ".toList "=:".toList).s = " k = v:w ".toList :=
  ⟨by decide,
    (((Split_spec " \t\n\r".toList " k = v:w ".toList "=:".toList (by decide)).1
      " k ".toList '=' " v:w ".toList (by decide) (by decide) (by decide)).1).trans
        (by decide),
    (((Split_spec " \t\n\r".toList " k = v:w ".toList "=:".toList (by decide)).1
      " k ".toList '=' " v:w ".toList (by decide) (by decide) (by decide)).2).trans
        (by decide),
    (Split_spec " \t\n\r".toList " k = v:w ".toList "=:".toList (by decide)).2.2.2.2.2.2⟩

/-- What the driver does with fewer than three arguments and with exactly three: with
`argc < 3` it ends with `Missing Parameters.`, and with the two file names alone it
goes on with all reference values `0`. -/
theorem itkMINCImageIOTest_2D_two_files {R : Type} [Zero R] (stod : String → Option R) :
    (∀ argv : List String, argv.length < 3 →
      itkMINCImageIOTest_2D stod argv = DriverOutcome.missingParameters) ∧
    (∀ prog input output : String,
      itkMINCImageIOTest_2D stod [prog, input, output] =
        DriverOutcome.runs input output 0 0 0) := by
  constructor
  · intro argv h
    have h3 : ((argv.length : Nat) : Int) < 3 := by exact_mod_cast h
    simp [itkMINCImageIOTest_2D, h3]
  · intro prog input output
    simp [itkMINCImageIOTest_2D]

/-- What the driver does with more than three arguments: it goes on only when `argc` is
`7`, and ends with `Incorrect number of additional parameters` for every other count. -/
theorem itkMINCImageIOTest_2D_additional {R : Type} [Zero R] (stod : String → Option R)
    (argv : List String) (h3 : 3 < argv.length) (h7 : argv.length ≠ 7) :
    itkMINCImageIOTest_2D stod argv =
      DriverOutcome.incorrectNumberOfAdditionalParameters := by
  have a1 : ¬ ((argv.length : Nat) : Int) < 3 := by
    have : (3 : Int) < ((argv.length : Nat) : Int) := by exact_mod_cast h3
    omega
  have a2 : ((argv.length : Nat) : Int) > 3 := by exact_mod_cast h3
  have a3 : ¬ ((argv.length : Nat) : Int) = 7 := by exact_mod_cast h7
  simp [itkMINCImageIOTest_2D, a1, a2, a3]

/-- C19: the code at the failing input. With the documented command line
`inputfile outputfile sum mx my` (`argc = 6`) the driver ends with `Incorrect number of
additional parameters` and does not parse the three values; it parses them only when
a seventh argument is present, which it then ignores. -/
theorem itkMINCImageIOTest_2D_rejects_documented_usage {R : Type} [Zero R]
    (stod : String → Option R) (prog input output sum mx my : String) :
    itkMINCImageIOTest_2D stod [prog, input, output, sum, mx, my] =
      DriverOutcome.incorrectNumberOfAdditionalParameters ∧
    ∀ extra : String,
      itkMINCImageIOTest_2D stod [prog, input, output, sum, mx, my, extra] =
        match stod sum, stod mx, stod my with
        | some t, some x, some y => DriverOutcome.runs input output t x y
        | _, _, _ => DriverOutcome.stodThrows := by
  constructor
  · exact itkMINCImageIOTest_2D_additional stod _ (by simp) (by simp)
  · intro extra
    simp [itkMINCImageIOTest_2D]

end itk
